import Mathlib

/-!
Verification of the proglog append-only commit-log storage engine
(`internal/log`: store.go, index.go, segment.go, log.go, config.go).

The Go code is shallowly embedded: files and memory maps become `List Nat`
(one `Nat` per byte), in-place mutation becomes explicit state passing, and
fallible operations return `Except`/`Option`.  `uint64`/`uint32` casts and
subtractions are modelled with explicit wrap-around arithmetic at the points
where the Go source performs a conversion (`uint32(...)`, `int64(...)`,
`int(i - j)`); the monotone `uint64` counters (`nextOffset`, `size`) are
modelled as `Nat`, since reaching their wrap-around point would require 2^64
successful appends.  Protobuf marshalling of the `Record` message is modelled
by an injective, prefix-decodable encoding (a varint offset followed by the
raw payload), mirroring the wire format's varint `offset` field; the engine
treats these bytes as opaque.
-/

namespace Proglog

/-- 2^64, the modulus of Go's `uint64`. -/
def U64 : Nat := 2 ^ 64

/-- 2^32, the modulus of Go's `uint32`. -/
def U32 : Nat := 2 ^ 32

/-- Go's `uint64` subtraction `a - b` (wrap-around), for `a b < U64`. -/
def goU64sub (a b : Nat) : Nat :=
  if b ≤ a then a - b else U64 - (b - a)

/-- Go's conversion of a `uint64` bit pattern to `int64` (two's complement). -/
def toInt64 (x : Nat) : Int :=
  if x % U64 < 2 ^ 63 then (x % U64 : Int) else (x % U64 : Int) - (U64 : Int)

/-- Go's conversion `uint32(n)` of an `int64` value: the low 32 bits. -/
def u32ofInt (n : Int) : Nat :=
  (n % (U32 : Int)).toNat

/-- Big-endian byte encoding on `k` bytes, as written by
`encoding/binary.BigEndian.PutUint64` / `PutUint32` (value taken mod 256^k). -/
def beBytes : Nat → Nat → List Nat
  | 0, _ => []
  | k + 1, n => beBytes k (n / 256) ++ [n % 256]

/-- The 8-byte big-endian encoding used for store lengths and index positions. -/
def u64BE (n : Nat) : List Nat := beBytes 8 n

/-- The 4-byte big-endian encoding used for index relative offsets. -/
def u32BE (n : Nat) : List Nat := beBytes 4 n

/-- Big-endian byte decoding, as read by `enc.Uint64` / `enc.Uint32`. -/
def decodeBE (bs : List Nat) : Nat :=
  bs.foldl (fun a b => 256 * a + b) 0

theorem length_beBytes (k n : Nat) : (beBytes k n).length = k := by
  induction k generalizing n with
  | zero => rfl
  | succ k ih => simp [beBytes, ih]

theorem decodeBE_append (l : List Nat) (x : Nat) (a : Nat) :
    (l ++ [x]).foldl (fun a b => 256 * a + b) a =
      256 * l.foldl (fun a b => 256 * a + b) a + x := by
  simp [List.foldl_append]

theorem decodeBE_beBytes (k n : Nat) : decodeBE (beBytes k n) = n % 256 ^ k := by
  induction k generalizing n with
  | zero => simp [beBytes, decodeBE, Nat.mod_one]
  | succ k ih =>
    have h : decodeBE (beBytes k (n / 256) ++ [n % 256]) =
        256 * decodeBE (beBytes k (n / 256)) + n % 256 := by
      simp [decodeBE, decodeBE_append]
    have hmul : n % (256 * 256 ^ k) = n % 256 + 256 * (n / 256 % 256 ^ k) :=
      Nat.mod_mul
    calc decodeBE (beBytes (k + 1) n)
        = 256 * decodeBE (beBytes k (n / 256)) + n % 256 := h
      _ = 256 * (n / 256 % 256 ^ k) + n % 256 := by rw [ih]
      _ = n % (256 * 256 ^ k) := by omega
      _ = n % 256 ^ (k + 1) := by ring_nf

theorem decodeBE_u64BE (n : Nat) : decodeBE (u64BE n) = n % U64 := by
  have h : (256 : Nat) ^ 8 = U64 := by norm_num [U64]
  rw [u64BE, decodeBE_beBytes, h]

theorem decodeBE_u32BE (n : Nat) : decodeBE (u32BE n) = n % U32 := by
  have h : (256 : Nat) ^ 4 = U32 := by norm_num [U32]
  rw [u32BE, decodeBE_beBytes, h]

theorem length_u64BE (n : Nat) : (u64BE n).length = 8 := length_beBytes 8 n

theorem length_u32BE (n : Nat) : (u32BE n).length = 4 := length_beBytes 4 n

/-- The byte slice `l[a:b]`, as used on the memory-mapped index (`i.mmap[a:b]`)
and for positional file reads. -/
def sliceL (l : List Nat) (a b : Nat) : List Nat :=
  (l.drop a).take (b - a)

/-- Overwriting the bytes of `l` starting at `pos` with `data`, as done by the
`copy`-like writes into the mmap (`enc.PutUint32(i.mmap[...])`). -/
def listWrite (l : List Nat) (pos : Nat) (data : List Nat) : List Nat :=
  l.take pos ++ data ++ l.drop (pos + data.length)

theorem length_listWrite (l data : List Nat) (pos : Nat)
    (h : pos + data.length ≤ l.length) :
    (listWrite l pos data).length = l.length := by
  simp [listWrite]
  omega

theorem sliceL_listWrite_self (l data : List Nat) (pos : Nat)
    (h : pos + data.length ≤ l.length) :
    sliceL (listWrite l pos data) pos (pos + data.length) = data := by
  have h1 : (l.take pos).length = pos := List.length_take_of_le (by omega)
  unfold sliceL listWrite
  rw [List.append_assoc, List.drop_left' h1]
  have h2 : pos + data.length - pos = data.length := by omega
  rw [h2]
  exact List.take_left' rfl

theorem sliceL_listWrite_before (l data : List Nat) (pos a b : Nat)
    (hb : b ≤ pos) (hab : a ≤ b) (hfit : pos + data.length ≤ l.length) :
    sliceL (listWrite l pos data) a b = sliceL l a b := by
  have h1 : (l.take pos).length = pos := List.length_take_of_le (by omega)
  unfold sliceL listWrite
  rw [List.append_assoc]
  rw [List.drop_append_of_le_length (by rw [h1]; omega)]
  rw [List.take_append_of_le_length (by rw [List.length_drop, h1]; omega)]
  rw [List.drop_take, List.take_take]
  congr 1
  omega

/-- Fuel-driven helper for `varint` (structural recursion, so that the kernel
can evaluate it; the fuel `n` itself always suffices since the value shrinks
by a factor of 128 per byte). -/
def varintF : Nat → Nat → List Nat
  | 0, n => [n]
  | f + 1, n => if n < 128 then [n] else (n % 128 + 128) :: varintF f (n / 128)

/-- Protobuf varint encoding (base-128, little-endian groups, continuation
bit), the wire format of the `Record.Offset` field. -/
def varint (n : Nat) : List Nat :=
  varintF n n

theorem varintF_fuel_irrel (n : Nat) : ∀ f g, n ≤ f → n ≤ g → varintF f n = varintF g n := by
  induction n using Nat.strong_induction_on with
  | _ n ih =>
    intro f g hf hg
    by_cases h : n < 128
    · cases f with
      | zero =>
        cases g with
        | zero => rfl
        | succ g => simp [varintF, h]
      | succ f =>
        cases g with
        | zero => simp [varintF, h]
        | succ g => simp [varintF, h]
    · have h1 : 1 ≤ n := by omega
      cases f with
      | zero => omega
      | succ f =>
        cases g with
        | zero => omega
        | succ g =>
          simp only [varintF, h, if_false]
          congr 1
          have hdiv : n / 128 < n := Nat.div_lt_self (by omega) (by omega)
          exact ih (n / 128) hdiv f g (by omega) (by omega)

/-- The defining equation of `varint`. -/
theorem varint_eq (n : Nat) :
    varint n = if n < 128 then [n] else (n % 128 + 128) :: varint (n / 128) := by
  by_cases h : n < 128
  · rw [if_pos h]
    cases n with
    | zero => rfl
    | succ m => simp [varint, varintF, h]
  · rw [if_neg h]
    have h1 : 1 ≤ n := by omega
    obtain ⟨f, rfl⟩ : ∃ f, n = f + 1 := ⟨n - 1, by omega⟩
    show varintF (f + 1) (f + 1) = _
    simp only [varintF, h, if_false]
    congr 1
    have hdiv : (f + 1) / 128 < f + 1 := Nat.div_lt_self (by omega) (by omega)
    exact varintF_fuel_irrel ((f + 1) / 128) f ((f + 1) / 128) (by omega) (by omega)

/-- Varint decoding: returns the decoded value and the remaining bytes. -/
def varintDec : List Nat → Option (Nat × List Nat)
  | [] => none
  | b :: bs =>
    if b < 128 then some (b, bs)
    else
      match varintDec bs with
      | some (m, rest) => some (b - 128 + 128 * m, rest)
      | none => none

theorem varintDec_varint (n : Nat) (rest : List Nat) :
    varintDec (varint n ++ rest) = some (n, rest) := by
  induction n using Nat.strong_induction_on with
  | _ n ih =>
    by_cases h : n < 128
    · rw [varint_eq]
      simp [h, varintDec]
    · have hlt : n / 128 < n := Nat.div_lt_self (by omega) (by omega)
      have hrec := ih (n / 128) hlt
      have hb : ¬ (n % 128 + 128 < 128) := by omega
      have harith : n % 128 + 128 - 128 + 128 * (n / 128) = n := by omega
      rw [varint_eq]
      simp only [h, if_false, List.cons_append, varintDec, hb,
        List.append_eq, hrec, harith]

/-- Configuration (`config.go`).  The Go struct nests these three fields under
`Config.Segment`; the nesting is flattened here. -/
structure Config where
  MaxStoreBytes : Nat
  MaxIndexBytes : Nat
  InitialOffset : Nat
  deriving DecidableEq, Repr

/-- `NewLog`'s default substitution: a zero `MaxStoreBytes` / `MaxIndexBytes`
becomes 1024. -/
def normConfig (c : Config) : Config :=
  { c with
    MaxStoreBytes := if c.MaxStoreBytes = 0 then 1024 else c.MaxStoreBytes
    MaxIndexBytes := if c.MaxIndexBytes = 0 then 1024 else c.MaxIndexBytes }

/-- The `api.Record` protobuf message: an opaque payload (`Value`) and a
`uint64` offset assigned by the engine. -/
structure Record where
  value : List Nat
  offset : Nat
  deriving DecidableEq, Repr

/-- Model of `proto.Marshal` on `api.Record`: varint encoding of the `uint64`
offset field (hence the value modulo 2^64) followed by the payload bytes —
injective and prefix-decodable, like the real wire format.  `proto.Marshal`
never fails on this message, so the model is total. -/
def marshal (r : Record) : List Nat :=
  varint (r.offset % U64) ++ r.value

/-- Model of `proto.Unmarshal`: `none` models a decode error. -/
def unmarshal (p : List Nat) : Option Record :=
  match varintDec p with
  | some (o, rest) => some { value := rest, offset := o }
  | none => none

theorem unmarshal_marshal (r : Record) :
    unmarshal (marshal r) = some { value := r.value, offset := r.offset % U64 } := by
  simp [unmarshal, marshal, varintDec_varint]

theorem varint_length_le (k n : Nat) (h : n < 128 ^ k) (hk : 0 < k) :
    (varint n).length ≤ k := by
  induction k generalizing n with
  | zero => omega
  | succ k ih =>
    by_cases h1 : n < 128
    · rw [varint_eq]
      simp only [h1, if_true, List.length_singleton]
      omega
    · rw [varint_eq]
      simp only [h1, if_false, List.length_cons]
      have hk' : 0 < k := by
        by_contra hk0
        have : k = 0 := by omega
        subst this
        simp at h
        omega
      have hdiv : n / 128 < 128 ^ k := by
        rw [pow_succ] at h
        exact Nat.div_lt_of_lt_mul (by omega)
      have := ih (n / 128) hdiv hk'
      omega

/-- The marshalled length of a record with a `uint64` offset: at most 10
varint bytes plus the payload. -/
theorem marshal_length_le (r : Record) :
    (marshal r).length ≤ 10 + r.value.length := by
  have h64 : r.offset % U64 < 128 ^ 10 := by
    have : r.offset % U64 < U64 := Nat.mod_lt _ (by norm_num [U64])
    have hpow : U64 < 128 ^ 10 := by norm_num [U64]
    omega
  have := varint_length_le 10 (r.offset % U64) h64 (by norm_num)
  simp [marshal]
  omega

/-- Errors surfaced by the embedded operations.  `eof` models `io.EOF`,
`offsetOutOfRange` models `api.ErrOffsetOutOfRange` (carrying the requested
offset), `decodeErr` a `proto.Unmarshal` failure. -/
inductive LogErr where
  | eof : LogErr
  | offsetOutOfRange : Nat → LogErr
  | decodeErr : LogErr
  deriving DecidableEq, Repr

/-- `lenWidth` (store.go): bytes of the length prefix. -/
def lenWidth : Nat := 8

/-- `offWidth`, `posWidth`, `entWidth` (index.go). -/
def offWidth : Nat := 4

def posWidth : Nat := 8

def entWidth : Nat := offWidth + posWidth

/-- The store (store.go): `bytes` is the logical file content (buffered writes
are flushed before every read, so the buffer/file split is invisible), `size`
the tracked size field. -/
structure Store where
  bytes : List Nat
  size : Nat
  deriving DecidableEq, Repr

/-- `store.Append`: writes `[len(p) as u64 BE][p]`, returns
`(bytesWritten, position, newStore)`. -/
def Store.append (s : Store) (p : List Nat) : Nat × Nat × Store :=
  let pos := s.size
  let w := p.length + lenWidth
  (w, pos, { bytes := s.bytes ++ u64BE p.length ++ p, size := s.size + w })

/-- `store.Read`: reads the 8-byte length at `pos`, then that many bytes at
`pos + lenWidth`.  A positional read past the end of the file is an `eof`
error (`File.ReadAt` returns an error on a short read). -/
def Store.read (s : Store) (pos : Nat) : Except LogErr (List Nat) :=
  if s.bytes.length < pos + lenWidth then .error .eof
  else
    let n := decodeBE (sliceL s.bytes pos (pos + lenWidth))
    if s.bytes.length < pos + lenWidth + n then .error .eof
    else .ok (sliceL s.bytes (pos + lenWidth) (pos + lenWidth + n))

/-- The index (index.go): `mmap` is the memory-mapped file content, `size` the
live-data length. -/
structure Index where
  mmap : List Nat
  size : Nat
  deriving DecidableEq, Repr

/-- `newIndex`: remembers the current file length as `size`, then
`os.Truncate`s the file to exactly `MaxIndexBytes` (growing with zero bytes or
shrinking), and memory-maps it. -/
def newIndex (fileBytes : List Nat) (c : Config) : Index :=
  { mmap := fileBytes.take c.MaxIndexBytes ++
      List.replicate (c.MaxIndexBytes - fileBytes.length) 0
    size := fileBytes.length }

/-- `index.Read`: entry number `offset` (`-1` selects the last entry); returns
the stored `(relOffset, position)` pair. -/
def Index.read (i : Index) (offset : Int) : Except LogErr (Nat × Nat) :=
  if i.size = 0 then .error .eof
  else
    let out : Nat := if offset = -1 then i.size / entWidth - 1 else u32ofInt offset
    let pos := out * entWidth
    if i.size < pos + entWidth then .error .eof
    else .ok (decodeBE (sliceL i.mmap pos (pos + offWidth)),
              decodeBE (sliceL i.mmap (pos + offWidth) (pos + entWidth)))

/-- `index.Write`: appends a 12-byte `[u32 relOffset][u64 position]` entry at
byte offset `size`, failing with `io.EOF` when the mapping is full.  `off` is
the `uint32` argument (the truncating cast happens at the call site). -/
def Index.write (i : Index) (off pos : Nat) : Except LogErr Index :=
  if i.mmap.length < i.size + entWidth then .error .eof
  else .ok { mmap := listWrite i.mmap i.size (u32BE off ++ u64BE pos)
             size := i.size + entWidth }

/-- A segment (segment.go): one store plus one index under a base offset. -/
structure Segment where
  store : Store
  index : Index
  baseOffset : Nat
  nextOffset : Nat
  deriving DecidableEq, Repr

/-- `newSegment` for files that do not yet exist on disk (the bootstrap case
and roll-over case): fresh empty store file, fresh index file, and
`nextOffset` recovered from `index.Read(-1)`. -/
def newSegmentFresh (base : Nat) (c : Config) : Segment :=
  let st : Store := { bytes := [], size := 0 }
  let idx := newIndex [] c
  { store := st
    index := idx
    baseOffset := base
    nextOffset :=
      match idx.read (-1) with
      | .error _ => base
      | .ok (off, _) => base + off + 1 }

/-- `segment.Append`: stamps the record with `nextOffset`, appends the
marshalled bytes to the store, writes the index entry
(`uint32(nextOffset - baseOffset)`, wrap-around subtraction and truncating
cast as in Go), and increments `nextOffset` only on success.  On an index
write failure the store has already been mutated; the returned segment
reflects that. -/
def Segment.append (s : Segment) (r : Record) : Option Nat × Segment :=
  let cur := s.nextOffset
  let p := marshal { r with offset := cur }
  match s.store.append p with
  | (_, pos, st) =>
    match s.index.write (goU64sub s.nextOffset s.baseOffset % U32) pos with
    | .error _ => (none, { s with store := st })
    | .ok ix =>
      (some cur, { s with store := st, index := ix, nextOffset := s.nextOffset + 1 })

/-- `segment.Read`: translates the absolute offset to a segment-relative one
(`int64(off - baseOffset)`, Go wrap-around), looks up the store position in
the index, reads and unmarshals the record. -/
def Segment.read (s : Segment) (off : Nat) : Except LogErr Record :=
  let indexOffset : Int := toInt64 (goU64sub off s.baseOffset)
  match s.index.read indexOffset with
  | .error e => .error e
  | .ok (_, pos) =>
    match s.store.read pos with
    | .error e => .error e
    | .ok p =>
      match unmarshal p with
      | some r => .ok r
      | none => .error .decodeErr

/-- `segment.IsMaxed`. -/
def Segment.isMaxed (s : Segment) (c : Config) : Bool :=
  c.MaxStoreBytes ≤ s.store.size || c.MaxIndexBytes ≤ s.index.size

/-- The log (log.go): a directory of segments.  `activeSegment` always points
at the last element of `segments` (every assignment in the source sets it so),
hence it is represented by `segments.getLast?`. -/
structure Log where
  config : Config
  segments : List Segment
  deriving DecidableEq, Repr

/-- The active segment: the last one. -/
def Log.active (l : Log) : Option Segment :=
  l.segments.getLast?

/-- `NewLog` on an empty directory: normalizes the config and bootstraps one
fresh segment at `InitialOffset`. -/
def newLogEmptyDir (c : Config) : Log :=
  let c' := normConfig c
  { config := c', segments := [newSegmentFresh c'.InitialOffset c'] }

/-- `Log.Append`: delegates to the active segment; on success, if the active
segment is now maxed, rolls a fresh segment at `off + 1`.  The mutated log is
returned alongside the result (`none` models the error return; an append to a
log with no segments models the nil-pointer panic as `none` with the log
unchanged, an unreachable state). -/
def Log.append (l : Log) (r : Record) : Option Nat × Log :=
  match l.segments.getLast? with
  | none => (none, l)
  | some s =>
    match s.append r with
    | (none, s') => (none, { l with segments := l.segments.dropLast ++ [s'] })
    | (some off, s') =>
      let segs := l.segments.dropLast ++ [s']
      if s'.isMaxed l.config then
        (some off, { l with segments := segs ++ [newSegmentFresh (off + 1) l.config] })
      else
        (some off, { l with segments := segs })

/-- `Log.Read`: scans for the first segment with
`baseOffset ≤ offset < nextOffset`; with no covering segment (or the
redundant `s.nextOffset <= offset` re-check of the source firing) the error
carries the requested offset.  `Log.Read` takes only the read lock and never
mutates the log, which the embedding reflects by returning no state. -/
def Log.read (l : Log) (off : Nat) : Except LogErr Record :=
  match l.segments.find? (fun s => decide (s.baseOffset ≤ off) && decide (off < s.nextOffset)) with
  | none => .error (.offsetOutOfRange off)
  | some s =>
    if s.nextOffset ≤ off then .error (.offsetOutOfRange off)
    else s.read off

/-- `Log.Truncate`: removes every segment with `nextOffset ≤ lowest` (their
files are unlinked; file I/O cannot fail in the embedding) and keeps the rest
in order.  The final `l.segments[len(l.segments)-1]` active-pointer reset
panics when nothing remains; `none` models that panic. -/
def Log.truncate (l : Log) (lowest : Nat) : Option Log :=
  let kept := l.segments.filter (fun s => decide (lowest < s.nextOffset))
  if kept.isEmpty then none
  else some { l with segments := kept }

/-- `Log.LowestOffset`: `segments[0].baseOffset` (panics on no segments,
modelled by 0, unreachable). -/
def Log.lowestOffset (l : Log) : Nat :=
  match l.segments.head? with
  | none => 0
  | some s => s.baseOffset

/-- `Log.HighestOffset`: `segments[last].nextOffset`, special-casing 0. -/
def Log.highestOffset (l : Log) : Nat :=
  match l.segments.getLast? with
  | none => 0
  | some s => if s.nextOffset = 0 then 0 else s.nextOffset - 1

/-- The stem of a filename as computed by
`strings.TrimSuffix(name, path.Ext(name))`: the characters before the last
dot, or the whole name when it has no dot. -/
def stemChars (cs : List Char) : List Char :=
  match cs.reverse.dropWhile (fun ch => decide (ch ≠ '.')) with
  | [] => cs
  | _ :: rest => rest.reverse

/-- `strconv.ParseUint(s, 10, 0)` with the error discarded, as `setup` does
(`off, _ := strconv.ParseUint(...)`): a malformed string yields the zero
value; a decimal overflowing `uint64` yields the clamped maximum. -/
def goParseUintLossy (cs : List Char) : Nat :=
  if cs ≠ [] ∧ cs.all Char.isDigit then
    min (cs.foldl (fun a ch => 10 * a + (ch.toNat - 48)) 0) (U64 - 1)
  else 0

/-- The base offset `setup` extracts from one directory entry. -/
def baseOffsetOf (name : String) : Nat :=
  goParseUintLossy (stemChars name.data)

/-- One step of the insertion sort modelling `slices.SortFunc` with the
comparator `int(i - j)` of `setup` (`uint64` wrap-around subtraction, then
conversion to `int`).  On values below `2^63` the comparator agrees with the
natural order, and any comparison sort yields the unique sorted permutation,
so the choice of insertion sort is immaterial there. -/
def insertGo (x : Nat) : List Nat → List Nat
  | [] => [x]
  | y :: ys => if toInt64 (goU64sub x y) ≤ 0 then x :: y :: ys else y :: insertGo x ys

/-- The sort of `setup`'s base-offset slice. -/
def sortGo : List Nat → List Nat
  | [] => []
  | x :: xs => insertGo x (sortGo xs)

/-- `setup`'s segment-creation loop increments `i` twice per iteration
(`for i := 0; ...; i++ { ...; i++ }`), so it uses the elements at even
positions of the sorted slice. -/
def everyOther : List Nat → List Nat
  | [] => []
  | [x] => [x]
  | x :: _ :: rest => x :: everyOther rest

/-- The base offsets of the segments `setup` builds, in creation order, from
the directory listing (`os.ReadDir` order, i.e. sorted by filename): parse
every stem (errors yield 0), sort with the `int(i - j)` comparator, take every
other element; an empty result bootstraps `InitialOffset`. -/
def setupBaseOffsets (files : List String) (c : Config) : List Nat :=
  let bases := everyOther (sortGo (files.map baseOffsetOf))
  if bases.isEmpty then [c.InitialOffset] else bases

/-- The `nextOffset` of the active segment (0 when there is none, an
unreachable state). -/
def Log.activeNextOffset (l : Log) : Nat :=
  match l.segments.getLast? with
  | none => 0
  | some s => s.nextOffset

/-! Concrete fixtures used by witnesses. -/

/-- A small test configuration (MaxIndexBytes 36 = three index entries). -/
def cfgW : Config := { MaxStoreBytes := 1024, MaxIndexBytes := 36, InitialOffset := 0 }

/-- The same configuration with `InitialOffset = 3`. -/
def cfgW3 : Config := { MaxStoreBytes := 1024, MaxIndexBytes := 36, InitialOffset := 3 }

/-- The same configuration with `InitialOffset = 5`. -/
def cfgW5 : Config := { MaxStoreBytes := 1024, MaxIndexBytes := 36, InitialOffset := 5 }

/-- A configuration whose index mapping is too small for even one entry, so
`index.Write` always fails. -/
def cfgNoIndex : Config := { MaxStoreBytes := 1024, MaxIndexBytes := 0, InitialOffset := 0 }

/-- A segment whose index mapping is full from the start (built directly, so
the `MaxIndexBytes = 0` default substitution of `NewLog` does not apply). -/
def segFullW : Segment := newSegmentFresh 0 cfgNoIndex

/-- A sample record. -/
def recW : Record := { value := [104, 105], offset := 7 }

/-! ### C8 — reads outside every segment fail with offset-out-of-range -/

/-- C8: for every offset covered by no segment (in particular `read(0)` on the
empty log), `Log.Read` fails with an offset-out-of-range error carrying the
requested offset.  `Log.read` is a pure function of the log in this embedding
(the Go method takes only the read lock and never writes), so the log state is
unchanged by construction. -/
theorem log_read_uncovered_out_of_range (l : Log) (off : Nat)
    (h : ∀ s ∈ l.segments, ¬ (s.baseOffset ≤ off ∧ off < s.nextOffset)) :
    l.read off = .error (.offsetOutOfRange off) := by
  unfold Log.read
  have hfind : l.segments.find?
      (fun s => decide (s.baseOffset ≤ off) && decide (off < s.nextOffset)) = none := by
    rw [List.find?_eq_none]
    intro s hs
    simp only [Bool.and_eq_true, decide_eq_true_eq]
    exact h s hs
  rw [hfind]

/-- C8 witness: scenario S4, `read(0)` on the freshly created empty log. -/
theorem log_read_uncovered_out_of_range_witness :
    (newLogEmptyDir cfgW).read 0 = .error (.offsetOutOfRange 0) :=
  log_read_uncovered_out_of_range (newLogEmptyDir cfgW) 0 (by decide)

/-! ### C10 — a failed segment append never consumes an offset -/

/-- C10: when `segment.Append` fails (in the embedding the one fallible step
is the index write; marshalling is total and store I/O errors are not
modelled), `nextOffset` is unchanged — even though the store bytes were
already written — and every successful append returns the pre-increment
`nextOffset`, so the next successful append returns exactly the offset the
failed one would have returned. -/
theorem segment_append_failure_keeps_nextOffset (s : Segment) (r : Record) :
    ((s.append r).1 = none → (s.append r).2.nextOffset = s.nextOffset) ∧
    (∀ off s', s.append r = (some off, s') →
      off = s.nextOffset ∧ s'.nextOffset = s.nextOffset + 1) := by
  unfold Segment.append
  simp only [Store.append]
  cases hw : s.index.write (goU64sub s.nextOffset s.baseOffset % U32) s.store.size with
  | error e => simp [hw]
  | ok ix =>
    simp only [hw]
    constructor
    · intro h
      simp at h
    · intro off s' heq
      simp only [Prod.mk.injEq, Option.some.injEq] at heq
      obtain ⟨h1, h2⟩ := heq
      constructor
      · omega
      · rw [← h2]

/-- C10 witness: a segment whose index mapping is full; the append fails and
`nextOffset` is unchanged. -/
theorem segment_append_failure_keeps_nextOffset_witness :
    (segFullW.append recW).1 = none ∧
    (segFullW.append recW).2.nextOffset = segFullW.nextOffset :=
  ⟨by decide, (segment_append_failure_keeps_nextOffset segFullW recW).1 (by decide)⟩

/-! ### C7 — HighestOffset -/

/-- C7 counterexample: the empty log opened with `InitialOffset = 5` reports
`highestOffset() = 4`, not 0 — `HighestOffset` special-cases only
`nextOffset == 0`, and an empty log at a nonzero initial offset has
`nextOffset = InitialOffset ≠ 0`. -/
theorem highestOffset_initial_counterexample :
    (newLogEmptyDir cfgW5).highestOffset = 4 ∧
    ¬ (newLogEmptyDir cfgW5).highestOffset = 0 := by decide

/-- C7 amended: `HighestOffset` returns `active.nextOffset − 1` whenever
`active.nextOffset ≠ 0` — including the empty log opened at a nonzero
`InitialOffset I`, which therefore reports `I − 1` — and returns 0 exactly
when `active.nextOffset = 0` (the empty log with `InitialOffset = 0`).  When
the log contains at least one record, `active.nextOffset` is the offset after
the newest record, so the first case applies. -/
theorem highestOffset_spec (l : Log) (s : Segment) (h : l.active = some s) :
    (s.nextOffset ≠ 0 → l.highestOffset = s.nextOffset - 1) ∧
    (s.nextOffset = 0 → l.highestOffset = 0) := by
  unfold Log.active at h
  unfold Log.highestOffset
  rw [h]
  constructor <;> intro h0 <;> simp [h0]

/-- C7 witness: the empty log at `InitialOffset = 5` via the amended theorem. -/
theorem highestOffset_spec_witness :
    (newLogEmptyDir cfgW5).highestOffset =
      (newSegmentFresh 5 (normConfig cfgW5)).nextOffset - 1 :=
  (highestOffset_spec (newLogEmptyDir cfgW5) (newSegmentFresh 5 (normConfig cfgW5))
    (by decide)).1 (by decide)

/-! ### C5 — index construction and file length -/

/-- A pre-existing index file of 24 bytes. -/
def idxFileW : List Nat := List.replicate 24 1

/-- A configuration with `MaxIndexBytes = 12`, smaller than `idxFileW`. -/
def cfgSmallIdx : Config := { MaxStoreBytes := 1024, MaxIndexBytes := 12, InitialOffset := 0 }

/-- C5 counterexample: `newIndex` calls `os.Truncate(name, MaxIndexBytes)`
unconditionally, which sets the file length to exactly `MaxIndexBytes`; with
`MaxIndexBytes = 12` and a pre-existing 24-byte file the data beyond byte 12
is cut off, so the first `L` bytes are not preserved. -/
theorem newIndex_shrinks_counterexample :
    (newIndex idxFileW cfgSmallIdx).mmap.length = 12 ∧
    (newIndex idxFileW cfgSmallIdx).mmap.take idxFileW.length ≠ idxFileW := by decide

/-- C5 amended: `newIndex` records the pre-existing length as `size` and sets
the file (and mapping) length to exactly `MaxIndexBytes` — growing with
zeroes when the file was shorter, and shrinking (losing data) when
`MaxIndexBytes` is smaller than the existing file; exactly the first
`min(L, MaxIndexBytes)` existing bytes are preserved. -/
theorem newIndex_length_spec (file : List Nat) (c : Config) :
    (newIndex file c).mmap.length = c.MaxIndexBytes ∧
    (newIndex file c).size = file.length ∧
    (newIndex file c).mmap.take (min file.length c.MaxIndexBytes) =
      file.take (min file.length c.MaxIndexBytes) := by
  refine ⟨?_, rfl, ?_⟩
  · simp [newIndex]
    omega
  · unfold newIndex
    simp only
    rw [List.take_append_of_le_length (by simp only [List.length_take]; omega)]
    rw [List.take_take]
    congr 1
    omega

/-! ### C4 / C9 — Truncate -/

/-- C4 counterexample: with `lowest = 5` every segment of the fresh empty log
satisfies the removal condition, all segments are removed, and the final
active-pointer reset `l.segments[len(l.segments)-1]` indexes an empty slice —
a panic, modelled as `none` — so truncate does not produce the state the
claim describes for this input. -/
theorem truncate_counterexample :
    (newLogEmptyDir cfgW).truncate 5 = none := by decide

/-- C4 amended: whenever at least one segment has `nextOffset > lowest`,
`truncate(lowest)` removes exactly the segments with `nextOffset ≤ lowest`,
keeps the rest in their original order (a sublist), and the resulting active
segment is the last remaining segment; when no segment survives, the
active-pointer reset faults (see the counterexample). -/
theorem truncate_spec (l : Log) (lowest : Nat)
    (h : ∃ s ∈ l.segments, lowest < s.nextOffset) :
    l.truncate lowest =
      some { l with segments := l.segments.filter (fun s => decide (lowest < s.nextOffset)) } ∧
    (∀ s, s ∈ l.segments.filter (fun s => decide (lowest < s.nextOffset)) ↔
      s ∈ l.segments ∧ lowest < s.nextOffset) ∧
    (l.segments.filter (fun s => decide (lowest < s.nextOffset))).Sublist l.segments ∧
    (l.truncate lowest).map Log.active =
      some ((l.segments.filter (fun s => decide (lowest < s.nextOffset))).getLast?) := by
  obtain ⟨s, hs, hlt⟩ := h
  have hmem : s ∈ l.segments.filter (fun s => decide (lowest < s.nextOffset)) := by
    rw [List.mem_filter]
    exact ⟨hs, by simpa using hlt⟩
  have hne : l.segments.filter (fun s => decide (lowest < s.nextOffset)) ≠ [] := by
    intro hnil
    rw [hnil] at hmem
    exact absurd hmem (List.not_mem_nil s)
  have htr : l.truncate lowest =
      some { l with segments := l.segments.filter (fun s => decide (lowest < s.nextOffset)) } := by
    unfold Log.truncate
    rw [if_neg]
    simpa using hne
  refine ⟨htr, ?_, List.filter_sublist _, ?_⟩
  · intro t
    rw [List.mem_filter]
    simp
  · rw [htr]
    rfl

/-- C4 witness: `truncate 0` on an empty log at `InitialOffset = 3` keeps its
only segment. -/
theorem truncate_spec_witness :
    (newLogEmptyDir cfgW3).truncate 0 =
      some { (newLogEmptyDir cfgW3) with
        segments := (newLogEmptyDir cfgW3).segments.filter
          (fun s => decide (0 < s.nextOffset)) } :=
  (truncate_spec (newLogEmptyDir cfgW3) 0 (by decide)).1

/-- C9 counterexample: `truncate(3)` on the empty log at `InitialOffset = 3`
is the `lowest ≥ active.nextOffset` case the claim asserts to be fine: every
segment satisfies the removal condition, the segment list becomes empty, and
the active-pointer reset indexes an empty slice — a panic, modelled as
`none` — so the claim's "segment list is non-empty and the reset is
well-defined" fails here. -/
theorem truncate_empty_counterexample :
    (newLogEmptyDir cfgW3).truncate 3 = none := by decide

/-- C9 amended: whenever `truncate` completes normally the remaining segment
list is non-empty (so the active-pointer reset is well-defined), but when
every segment satisfies the removal condition — in particular whenever
`lowest ≥ active.nextOffset`, since `nextOffset` is monotone along the
segment list — all segments are removed and the reset panics (modelled:
`truncate` returns `none` rather than a successor state). -/
theorem truncate_result_nonempty (l : Log) (lowest : Nat) :
    (∀ l', l.truncate lowest = some l' → l'.segments ≠ []) ∧
    ((∀ s ∈ l.segments, s.nextOffset ≤ lowest) → l.truncate lowest = none) := by
  constructor
  · intro l' h
    unfold Log.truncate at h
    by_cases he : (l.segments.filter (fun s => decide (lowest < s.nextOffset))).isEmpty
    · rw [if_pos he] at h
      exact absurd h (by simp)
    · rw [if_neg he] at h
      have hl' : l'.segments = l.segments.filter (fun s => decide (lowest < s.nextOffset)) := by
        cases h
        rfl
      rw [hl']
      simpa using he
  · intro h
    unfold Log.truncate
    have hnil : l.segments.filter (fun s => decide (lowest < s.nextOffset)) = [] := by
      rw [List.filter_eq_nil_iff]
      intro s hs
      have := h s hs
      simp only [decide_eq_true_eq]
      omega
    rw [if_pos]
    rw [hnil]
    rfl

/-- C9 witness: the fresh log at `InitialOffset = 0` has its only segment at
`nextOffset = 0 ≤ 0`, so `truncate 0` removes everything and faults. -/
theorem truncate_result_nonempty_witness :
    (newLogEmptyDir cfgW).truncate 0 = none :=
  (truncate_result_nonempty (newLogEmptyDir cfgW) 0).2 (by decide)

/-! ### Inversion lemmas for append -/

theorem newSegmentFresh_nextOffset (b : Nat) (c : Config) :
    (newSegmentFresh b c).nextOffset = b := rfl

theorem newSegmentFresh_baseOffset (b : Nat) (c : Config) :
    (newSegmentFresh b c).baseOffset = b := rfl

theorem index_write_ok_inv (i : Index) (off pos : Nat) (ix : Index)
    (h : i.write off pos = .ok ix) :
    i.size + entWidth ≤ i.mmap.length ∧
    ix.mmap = listWrite i.mmap i.size (u32BE off ++ u64BE pos) ∧
    ix.size = i.size + entWidth := by
  unfold Index.write at h
  by_cases hfit : i.mmap.length < i.size + entWidth
  · rw [if_pos hfit] at h
    exact absurd h (by simp)
  · rw [if_neg hfit] at h
    have := Except.ok.inj h
    rw [← this]
    exact ⟨by omega, rfl, rfl⟩

theorem segment_append_some_inv (s : Segment) (r : Record) (off : Nat) (s' : Segment)
    (h : s.append r = (some off, s')) :
    off = s.nextOffset ∧
    s'.baseOffset = s.baseOffset ∧
    s'.nextOffset = s.nextOffset + 1 ∧
    s'.store.bytes = s.store.bytes ++
      u64BE (marshal { r with offset := s.nextOffset }).length ++
      marshal { r with offset := s.nextOffset } ∧
    s'.store.size = s.store.size + ((marshal { r with offset := s.nextOffset }).length + lenWidth) ∧
    s.index.write (goU64sub s.nextOffset s.baseOffset % U32) s.store.size = .ok s'.index := by
  unfold Segment.append at h
  simp only [Store.append] at h
  cases hw : s.index.write (goU64sub s.nextOffset s.baseOffset % U32) s.store.size with
  | error e =>
    rw [hw] at h
    exact absurd h (by simp)
  | ok ix =>
    rw [hw] at h
    simp only [Prod.mk.injEq, Option.some.injEq] at h
    obtain ⟨h1, h2⟩ := h
    subst h2
    exact ⟨h1.symm, rfl, rfl, rfl, rfl, rfl⟩

theorem segment_append_none_inv (s : Segment) (r : Record) (s' : Segment)
    (h : s.append r = (none, s')) :
    s'.nextOffset = s.nextOffset ∧ s'.baseOffset = s.baseOffset ∧ s'.index = s.index := by
  unfold Segment.append at h
  simp only [Store.append] at h
  cases hw : s.index.write (goU64sub s.nextOffset s.baseOffset % U32) s.store.size with
  | error e =>
    rw [hw] at h
    simp only [Prod.mk.injEq] at h
    rw [← h.2]
    exact ⟨rfl, rfl, rfl⟩
  | ok ix =>
    rw [hw] at h
    exact absurd h (by simp)

theorem log_append_some_inv (l : Log) (r : Record) (off : Nat) (l' : Log)
    (h : l.append r = (some off, l')) :
    ∃ s s', l.segments.getLast? = some s ∧ s.append r = (some off, s') ∧
      ((s'.isMaxed l.config = true ∧
          l'.segments = l.segments.dropLast ++ [s'] ++ [newSegmentFresh (off + 1) l.config]) ∨
        (s'.isMaxed l.config = false ∧ l'.segments = l.segments.dropLast ++ [s'])) ∧
      l'.config = l.config := by
  unfold Log.append at h
  cases hl : l.segments.getLast? with
  | none =>
    rw [hl] at h
    simp only at h
    exact absurd h (by simp)
  | some s =>
    rw [hl] at h
    simp only at h
    cases hsa : s.append r with
    | mk res s1 =>
      rw [hsa] at h
      cases res with
      | none =>
        simp only at h
        exact absurd h (by simp)
      | some o =>
        simp only at h
        by_cases hm : s1.isMaxed l.config
        · rw [if_pos hm] at h
          simp only [Prod.mk.injEq, Option.some.injEq] at h
          obtain ⟨h1, h2⟩ := h
          subst h1
          refine ⟨s, s1, rfl, hsa, Or.inl ⟨hm, ?_⟩, ?_⟩
          · rw [← h2]
          · rw [← h2]
        · rw [if_neg hm] at h
          simp only [Prod.mk.injEq, Option.some.injEq] at h
          obtain ⟨h1, h2⟩ := h
          subst h1
          refine ⟨s, s1, rfl, hsa, Or.inr ⟨by simpa using hm, ?_⟩, ?_⟩
          · rw [← h2]
          · rw [← h2]

/-- A successful `Log.Append` returns the active segment's `nextOffset` and
leaves the new active segment's `nextOffset` at `off + 1` (whether or not a
roll-over occurred). -/
theorem activeNextOffset_eq (l : Log) (s : Segment) (h : l.segments.getLast? = some s) :
    l.activeNextOffset = s.nextOffset := by
  unfold Log.activeNextOffset
  rw [h]

theorem log_append_activeNextOffset (l : Log) (r : Record) (off : Nat) (l' : Log)
    (h : l.append r = (some off, l')) :
    off = l.activeNextOffset ∧ l'.activeNextOffset = off + 1 := by
  obtain ⟨s, s', hl, hsa, hcases, _⟩ := log_append_some_inv l r off l' h
  obtain ⟨hoff, _, hnext', _, _, _⟩ := segment_append_some_inv s r off s' hsa
  constructor
  · rw [activeNextOffset_eq l s hl]
    exact hoff
  · rcases hcases with ⟨_, hsegs⟩ | ⟨_, hsegs⟩
    · have hlast : l'.segments.getLast? = some (newSegmentFresh (off + 1) l.config) := by
        rw [hsegs]
        exact List.getLast?_concat _
      rw [activeNextOffset_eq l' _ hlast, newSegmentFresh_nextOffset]
    · have hlast : l'.segments.getLast? = some s' := by
        rw [hsegs]
        exact List.getLast?_concat _
      rw [activeNextOffset_eq l' _ hlast, hnext', hoff]

/-- Repeated `Log.Append`, failing as soon as one append fails, collecting
the returned offsets: the shape of every append-loop in the package's tests
and callers. -/
def Log.appendAll : Log → List Record → Option (List Nat × Log)
  | l, [] => some ([], l)
  | l, r :: rs =>
    match l.append r with
    | (some off, l') =>
      match l'.appendAll rs with
      | some (offs, l'') => some (off :: offs, l'')
      | none => none
    | (none, _) => none

theorem appendAll_offsets (rs : List Record) (l : Log) (offs : List Nat) (l' : Log)
    (h : l.appendAll rs = some (offs, l')) :
    offs = List.range' l.activeNextOffset rs.length ∧
    l'.activeNextOffset = l.activeNextOffset + rs.length := by
  induction rs generalizing l offs with
  | nil =>
    unfold Log.appendAll at h
    simp only [Option.some.injEq, Prod.mk.injEq] at h
    obtain ⟨h1, h2⟩ := h
    subst h2
    simp [← h1, List.range']
  | cons r rs ih =>
    unfold Log.appendAll at h
    cases ha : l.append r with
    | mk res l1 =>
      rw [ha] at h
      cases res with
      | none =>
        simp only at h
        exact absurd h (by simp)
      | some off =>
        simp only at h
        cases hrec : l1.appendAll rs with
        | none =>
          rw [hrec] at h
          exact absurd h (by simp)
        | some p =>
          obtain ⟨offs1, l2⟩ := p
          rw [hrec] at h
          simp only [Option.some.injEq, Prod.mk.injEq] at h
          obtain ⟨h1, h2⟩ := h
          subst h2
          obtain ⟨hoff, hnext⟩ := log_append_activeNextOffset l r off l1 ha
          obtain ⟨ho1, ho2⟩ := ih l1 offs1 hrec
          have hlen : (r :: rs).length = rs.length + 1 := rfl
          constructor
          · rw [← h1, ho1, hnext, hoff, hlen]
            rfl
          · rw [ho2, hnext, hoff, hlen]
            omega

theorem activeNextOffset_newLogEmptyDir (c : Config) :
    (newLogEmptyDir c).activeNextOffset = c.InitialOffset := rfl

/-- C2: starting from a log freshly created in an empty directory with
`InitialOffset = 0`, a sequence of `n` appends that all complete successfully
returns exactly the offsets `0, 1, …, n−1`, in order: each successful append
returns the active segment's pre-increment `nextOffset`, which advances by
exactly one per append (also across segment roll-overs, where the fresh
segment starts at `off + 1`). -/
theorem log_append_offsets_sequential (c : Config) (rs : List Record)
    (offs : List Nat) (l' : Log)
    (hc : c.InitialOffset = 0)
    (h : (newLogEmptyDir c).appendAll rs = some (offs, l')) :
    offs = List.range rs.length := by
  have := (appendAll_offsets rs (newLogEmptyDir c) offs l' h).1
  rw [activeNextOffset_newLogEmptyDir, hc] at this
  rw [this, List.range_eq_range']

/-- C2 witness: four appends on the fresh log (scenario S2's shape: the
segment rolls after the third append) return offsets `[0, 1, 2, 3]`. -/
theorem log_append_offsets_sequential_witness :
    ((newLogEmptyDir cfgW).appendAll [recW, recW, recW, recW]).map Prod.fst =
      some (List.range 4) := by
  cases h : (newLogEmptyDir cfgW).appendAll [recW, recW, recW, recW] with
  | none =>
    have : ((newLogEmptyDir cfgW).appendAll [recW, recW, recW, recW]).isSome = true := by decide
    rw [h] at this
    exact absurd this (by simp)
  | some p =>
    obtain ⟨offs, l'⟩ := p
    simp only [Option.map_some']
    rw [log_append_offsets_sequential cfgW [recW, recW, recW, recW] offs l' rfl h]
    rfl

/-! ### C6 — startup recovery (`setup`) -/

/-- Each element twice, in order: the base-offset multiset of a directory
holding exactly the `.index`/`.store` pair of every segment. -/
def dupEach : List Nat → List Nat
  | [] => []
  | x :: xs => x :: x :: dupEach xs

theorem mem_dupEach (z : Nat) (u : List Nat) : z ∈ dupEach u ↔ z ∈ u := by
  induction u with
  | nil => simp [dupEach]
  | cons x xs ih => simp [dupEach, ih]

theorem dupEach_pairwise (u : List Nat) (hu : u.Pairwise (· < ·)) :
    (dupEach u).Pairwise (· ≤ ·) := by
  induction u with
  | nil => exact List.Pairwise.nil
  | cons x xs ih =>
    rw [List.pairwise_cons] at hu
    obtain ⟨hx, hxs⟩ := hu
    have htail := ih hxs
    refine List.Pairwise.cons ?_ (List.Pairwise.cons ?_ htail)
    · intro z hz
      rcases List.mem_cons.mp hz with hz | hz
      · omega
      · have := hx z ((mem_dupEach z xs).mp hz)
        omega
    · intro z hz
      have := hx z ((mem_dupEach z xs).mp hz)
      omega

theorem everyOther_dupEach (u : List Nat) : everyOther (dupEach u) = u := by
  induction u with
  | nil => rfl
  | cons x xs ih =>
    show everyOther (x :: x :: dupEach xs) = x :: xs
    rw [everyOther, ih]

/-- On values below 2^63 the comparator `int(i - j)` of `setup` orders like
the natural order. -/
theorem goCmp_le_iff (a b : Nat) (ha : a < 2 ^ 63) (hb : b < 2 ^ 63) :
    toInt64 (goU64sub a b) ≤ 0 ↔ a ≤ b := by
  unfold toInt64 goU64sub U64
  split <;> split <;> omega

theorem insertGo_perm (x : Nat) (l : List Nat) : (insertGo x l).Perm (x :: l) := by
  induction l with
  | nil => exact List.Perm.refl _
  | cons y ys ih =>
    rw [insertGo]
    by_cases hc : toInt64 (goU64sub x y) ≤ 0
    · rw [if_pos hc]
    · rw [if_neg hc]
      exact (ih.cons y).trans (List.Perm.swap x y ys)

theorem sortGo_perm (l : List Nat) : (sortGo l).Perm l := by
  induction l with
  | nil => exact List.Perm.refl _
  | cons x xs ih =>
    exact (insertGo_perm x (sortGo xs)).trans (ih.cons x)

theorem mem_insertGo (z x : Nat) (l : List Nat) :
    z ∈ insertGo x l ↔ z = x ∨ z ∈ l := by
  rw [(insertGo_perm x l).mem_iff]
  simp

theorem insertGo_pairwise (x : Nat) (l : List Nat)
    (hx : x < 2 ^ 63) (hl : ∀ y ∈ l, y < 2 ^ 63)
    (h : l.Pairwise (· ≤ ·)) : (insertGo x l).Pairwise (· ≤ ·) := by
  induction l with
  | nil => simp [insertGo]
  | cons y ys ih =>
    have hy : y < 2 ^ 63 := hl y (List.mem_cons_self y ys)
    have hys : ∀ z ∈ ys, z < 2 ^ 63 := fun z hz => hl z (List.mem_cons_of_mem y hz)
    rw [List.pairwise_cons] at h
    obtain ⟨hhead, htail⟩ := h
    rw [insertGo]
    by_cases hc : toInt64 (goU64sub x y) ≤ 0
    · rw [if_pos hc]
      have hxy : x ≤ y := (goCmp_le_iff x y hx hy).mp hc
      refine List.Pairwise.cons ?_ (List.Pairwise.cons hhead htail)
      intro z hz
      rcases List.mem_cons.mp hz with hz | hz
      · omega
      · have := hhead z hz
        omega
    · rw [if_neg hc]
      have hyx : y ≤ x := by
        have := (goCmp_le_iff x y hx hy).mpr
        by_contra hcon
        exact hc (this (by omega))
      refine List.Pairwise.cons ?_ (ih hys htail)
      intro z hz
      rcases (mem_insertGo z x ys).mp hz with hz | hz
      · omega
      · exact hhead z hz

theorem sortGo_pairwise (l : List Nat) (hl : ∀ y ∈ l, y < 2 ^ 63) :
    (sortGo l).Pairwise (· ≤ ·) := by
  induction l with
  | nil => exact List.Pairwise.nil
  | cons x xs ih =>
    have hx : x < 2 ^ 63 := hl x (List.mem_cons_self x xs)
    have hxs : ∀ y ∈ xs, y < 2 ^ 63 := fun y hy => hl y (List.mem_cons_of_mem x hy)
    have hmem : ∀ y ∈ sortGo xs, y < 2 ^ 63 := fun y hy =>
      hxs y ((sortGo_perm xs).mem_iff.mp hy)
    exact insertGo_pairwise x (sortGo xs) hx hmem (ih hxs)

/-- C6 counterexample: a directory holding segment pair `5.index`/`5.store`
plus three stray non-numeric files.  `setup` does not ignore the strays —
`strconv.ParseUint`'s error is discarded, so each stray contributes base
offset 0 — and the every-other-element loop is not a deduplication, so the
resulting segment list has base offsets `[0, 0, 5]`: two segments share base
offset 0 and the list is not duplicate-free. -/
theorem setup_base_offsets_counterexample :
    setupBaseOffsets ["5.index", "5.store", "a", "b", "c"] cfgW = [0, 0, 5] ∧
    ¬ (setupBaseOffsets ["5.index", "5.store", "a", "b", "c"] cfgW).Pairwise (· < ·) := by
  constructor
  · rfl
  · intro h
    rw [show setupBaseOffsets ["5.index", "5.store", "a", "b", "c"] cfgW = [0, 0, 5] from rfl]
      at h
    rw [List.pairwise_cons] at h
    have := h.1 0 (List.mem_cons_self 0 [5])
    omega

/-- C6 amended: on a directory whose entries parse to exactly two copies of
each distinct base offset (the normal layout: one `.index` and one `.store`
file per segment, no stray files) with all offsets below 2^63 (where the
`int(i − j)` comparator agrees with the natural order), `setup` produces one
segment per unique base offset, sorted ascending with no duplicates.  Stray
filenames are not ignored but parsed as 0, and offsets at or above 2^63 can
be misordered by the overflowing comparator (see the counterexample). -/
theorem setup_base_offsets_sorted (files : List String) (u : List Nat) (c : Config)
    (hu : u.Pairwise (· < ·)) (hne : u ≠ [])
    (hsmall : ∀ x ∈ u, x < 2 ^ 63)
    (hperm : (files.map baseOffsetOf).Perm (dupEach u)) :
    setupBaseOffsets files c = u ∧ (setupBaseOffsets files c).Pairwise (· < ·) := by
  have hmemsmall : ∀ y ∈ files.map baseOffsetOf, y < 2 ^ 63 := by
    intro y hy
    have : y ∈ dupEach u := hperm.mem_iff.mp hy
    exact hsmall y ((mem_dupEach y u).mp this)
  have hsorted1 : (sortGo (files.map baseOffsetOf)).Pairwise (· ≤ ·) :=
    sortGo_pairwise _ hmemsmall
  have hperm1 : (sortGo (files.map baseOffsetOf)).Perm (dupEach u) :=
    (sortGo_perm _).trans hperm
  have hsorted2 : (dupEach u).Pairwise (· ≤ ·) := dupEach_pairwise u hu
  have heq : sortGo (files.map baseOffsetOf) = dupEach u :=
    List.eq_of_perm_of_sorted hperm1 hsorted1 hsorted2
  have hresult : setupBaseOffsets files c = u := by
    unfold setupBaseOffsets
    rw [heq, everyOther_dupEach]
    have hni : u.isEmpty = false := by
      cases u with
      | nil => exact absurd rfl hne
      | cons x xs => rfl
    show (if u.isEmpty = true then [c.InitialOffset] else u) = u
    rw [hni]
    rfl
  exact ⟨hresult, hresult ▸ hu⟩

/-- C6 witness: a clean two-segment directory. -/
theorem setup_base_offsets_sorted_witness :
    setupBaseOffsets ["0.index", "0.store", "3.index", "3.store"] cfgW = [0, 3] :=
  (setup_base_offsets_sorted ["0.index", "0.store", "3.index", "3.store"] [0, 3] cfgW
    (by decide) (by decide) (by decide) (by decide)).1

/-! ### The reachable-state invariant (used for C1 and C3) -/

/-- Configuration sanity: the size caps are nonzero (guaranteed by `NewLog`'s
default substitution when a field is 0), the store cap fits comfortably below
the `uint64` positions recorded in the index, and the index cap respects the
design's 2^32-records-per-segment bound (spec §4.3: the 4-byte relative
offset "bounds a single segment to 2^32 records, which is a deliberate cap
enforced implicitly by MaxIndexBytes"). -/
def GoodCfg (c : Config) : Prop :=
  1 ≤ c.MaxStoreBytes ∧ 1 ≤ c.MaxIndexBytes ∧
  c.MaxStoreBytes ≤ 2 ^ 62 ∧ c.MaxIndexBytes ≤ entWidth * U32

instance (c : Config) : Decidable (GoodCfg c) := by
  unfold GoodCfg
  infer_instance

instance : DecidableEq (Except LogErr Record) := fun a b =>
  match a, b with
  | .ok x, .ok y => if h : x = y then isTrue (by rw [h]) else isFalse (by
      intro hc
      exact h (Except.ok.inj hc))
  | .error x, .error y => if h : x = y then isTrue (by rw [h]) else isFalse (by
      intro hc
      exact h (Except.error.inj hc))
  | .ok _, .error _ => isFalse (by intro hc; exact Except.noConfusion hc)
  | .error _, .ok _ => isFalse (by intro hc; exact Except.noConfusion hc)

/-- The marshalled records of a segment with the given base offset and
payload list (`vals` is the ghost list of payloads, oldest first). -/
def msOf (base : Nat) : List (List Nat) → List (List Nat)
  | [] => []
  | v :: vs => marshal { value := v, offset := base } :: msOf (base + 1) vs

/-- The store-file bytes encoding the given marshalled records in order. -/
def storeBytesOf (ms : List (List Nat)) : List Nat :=
  (ms.map (fun p => u64BE p.length ++ p)).flatten

/-- The byte position of entry `i` inside a store holding `ms`. -/
def posOfEntry (ms : List (List Nat)) (i : Nat) : Nat :=
  (storeBytesOf (ms.take i)).length

theorem msOf_length (base : Nat) (vs : List (List Nat)) : (msOf base vs).length = vs.length := by
  induction vs generalizing base with
  | nil => rfl
  | cons v vs ih => simp [msOf, ih]

theorem msOf_append (base : Nat) (vs : List (List Nat)) (v : List Nat) :
    msOf base (vs ++ [v]) = msOf base vs ++ [marshal { value := v, offset := base + vs.length }] := by
  induction vs generalizing base with
  | nil => simp [msOf]
  | cons w ws ih =>
    show msOf base (w :: (ws ++ [v])) = _
    rw [msOf, ih (base + 1)]
    simp [msOf]
    congr 2
    omega

theorem msOf_getElem (base : Nat) (vs : List (List Nat)) (i : Nat) (hi : i < vs.length)
    (hi2 : i < (msOf base vs).length) :
    (msOf base vs)[i] = marshal { value := vs[i], offset := base + i } := by
  induction vs generalizing base i with
  | nil => exact absurd hi (by simp)
  | cons v vs ih =>
    cases i with
    | zero => simp [msOf]
    | succ i =>
      have hi' : i < vs.length := by simpa using hi
      have hi2' : i < (msOf (base + 1) vs).length := by
        rw [msOf_length]
        exact hi'
      have := ih (base + 1) i hi' hi2'
      simp only [msOf, List.getElem_cons_succ]
      rw [this]
      congr 2
      omega

theorem storeBytesOf_append (ms ns : List (List Nat)) :
    storeBytesOf (ms ++ ns) = storeBytesOf ms ++ storeBytesOf ns := by
  simp [storeBytesOf]

theorem storeBytesOf_cons (m : List Nat) (ms : List (List Nat)) :
    storeBytesOf (m :: ms) = (u64BE m.length ++ m) ++ storeBytesOf ms := by
  simp [storeBytesOf]

theorem storeBytesOf_nil : storeBytesOf [] = [] := rfl

/-- Splitting the store bytes around entry `i`. -/
theorem storeBytesOf_split (ms : List (List Nat)) (i : Nat) (hi : i < ms.length) :
    storeBytesOf ms = storeBytesOf (ms.take i) ++
      ((u64BE (ms[i].length) ++ ms[i]) ++ storeBytesOf (ms.drop (i + 1))) := by
  conv_lhs => rw [← List.take_append_drop i ms]
  rw [storeBytesOf_append]
  congr 1
  rw [List.drop_eq_getElem_cons hi, storeBytesOf_cons]

theorem posOfEntry_le (ms : List (List Nat)) (i : Nat) (hi : i < ms.length) :
    posOfEntry ms i + lenWidth + ms[i].length ≤ (storeBytesOf ms).length := by
  have := storeBytesOf_split ms i hi
  have hlen := congrArg List.length this
  simp only [List.length_append, length_u64BE] at hlen
  unfold posOfEntry lenWidth
  omega

theorem posOfEntry_append (ms : List (List Nat)) (m : List Nat) (i : Nat) (hi : i ≤ ms.length) :
    posOfEntry (ms ++ [m]) i = posOfEntry ms i := by
  unfold posOfEntry
  rw [List.take_append_of_le_length hi]

theorem posOfEntry_last (ms : List (List Nat)) (m : List Nat) :
    posOfEntry (ms ++ [m]) ms.length = (storeBytesOf ms).length := by
  unfold posOfEntry
  rw [List.take_left' rfl]

/-- The per-segment invariant, relating a segment to the ghost list of the
payloads it holds. -/
structure SegInv (c : Config) (s : Segment) (vals : List (List Nat)) : Prop where
  hnext : s.nextOffset = s.baseOffset + vals.length
  hbytes : s.store.bytes = storeBytesOf (msOf s.baseOffset vals)
  hsize : s.store.size = s.store.bytes.length
  hstoreLt : s.store.bytes.length < U64
  hvlen : ∀ v ∈ vals, v.length < 2 ^ 63
  hidxsize : s.index.size = entWidth * vals.length
  hmmaplen : s.index.mmap.length = c.MaxIndexBytes
  hidxfits : s.index.size ≤ s.index.mmap.length
  hentries : ∀ i, i < vals.length →
    sliceL s.index.mmap (entWidth * i) (entWidth * i + entWidth) =
      u32BE (i % U32) ++ u64BE (posOfEntry (msOf s.baseOffset vals) i)

/-- The whole-log invariant: per-segment invariants, contiguity, and the
active segment strictly below its caps (the roll-over policy guarantees it). -/
structure LogInv (l : Log) (valss : List (List (List Nat))) : Prop where
  hlen : valss.length = l.segments.length
  hne : l.segments ≠ []
  hcfg : GoodCfg l.config
  hseg : ∀ i (hi : i < l.segments.length) (hi' : i < valss.length),
    SegInv l.config l.segments[i] valss[i]
  hchain : l.segments.Chain' (fun a b => b.baseOffset = a.nextOffset)
  hactive : ∀ s, l.segments.getLast? = some s →
    s.store.size < l.config.MaxStoreBytes ∧ s.index.size < l.config.MaxIndexBytes

theorem segInv_count_le (c : Config) (s : Segment) (vals : List (List Nat))
    (hinv : SegInv c s vals) (hc : c.MaxIndexBytes ≤ entWidth * U32) :
    vals.length ≤ U32 := by
  have h2 := hinv.hidxfits
  have h3 := hinv.hmmaplen
  have hc' : c.MaxIndexBytes ≤ 12 * U32 := by
    simpa [entWidth, offWidth, posWidth] using hc
  have h1' : s.index.size = 12 * vals.length := by
    simpa [entWidth, offWidth, posWidth] using hinv.hidxsize
  omega

theorem entWidth_eq : entWidth = 12 := rfl

theorem offWidth_eq : offWidth = 4 := rfl

theorem lenWidth_eq : lenWidth = 8 := rfl

theorem sliceL_take_part (l : List Nat) (a m k : Nat) :
    sliceL l a (a + m) = (sliceL l a (a + m + k)).take m := by
  unfold sliceL
  rw [List.take_take]
  congr 1
  omega

theorem sliceL_drop_part (l : List Nat) (a m k : Nat) :
    sliceL l (a + m) (a + m + k) = (sliceL l a (a + m + k)).drop m := by
  unfold sliceL
  rw [List.drop_take, List.drop_drop]
  congr 1
  omega

theorem sliceL_append_left (A rest : List Nat) (k : Nat) :
    sliceL (A ++ rest) A.length (A.length + k) = rest.take k := by
  unfold sliceL
  rw [List.drop_left]
  congr 1
  omega

theorem getD_eq_getElem (l : List (List Nat)) (i : Nat) (hi : i < l.length) :
    l.getD i [] = l[i] := by
  rw [List.getD_eq_getElem?_getD, List.getElem?_eq_getElem hi]
  rfl

/-- Reading a store whose bytes decompose around one length-prefixed record
returns exactly that record's bytes. -/
theorem store_read_generic (A m B : List Nat) (st : Store)
    (hbytes : st.bytes = A ++ ((u64BE m.length ++ m) ++ B))
    (hmlen : m.length < U64) :
    st.read A.length = .ok m := by
  unfold Store.read
  rw [hbytes]
  have hlen1 : (A ++ ((u64BE m.length ++ m) ++ B)).length =
      A.length + (8 + m.length + B.length) := by
    simp only [List.length_append, length_u64BE]
    try omega
  rw [if_neg (by rw [hlen1, lenWidth_eq]; omega)]
  have hslice8 : sliceL (A ++ ((u64BE m.length ++ m) ++ B)) A.length (A.length + lenWidth) =
      u64BE m.length := by
    rw [sliceL_append_left]
    rw [show (u64BE m.length ++ m) ++ B = u64BE m.length ++ (m ++ B) from by
      simp [List.append_assoc]]
    rw [List.take_append_of_le_length (by rw [length_u64BE, lenWidth_eq])]
    rw [List.take_of_length_le (by rw [length_u64BE, lenWidth_eq])]
  rw [hslice8, decodeBE_u64BE, Nat.mod_eq_of_lt hmlen]
  rw [if_neg (by rw [hlen1, lenWidth_eq]; omega)]
  have hsliceM : sliceL (A ++ ((u64BE m.length ++ m) ++ B))
      (A.length + lenWidth) (A.length + lenWidth + m.length) = m := by
    rw [sliceL_drop_part]
    rw [Nat.add_assoc]
    rw [sliceL_append_left]
    rw [List.take_append_of_le_length
      (by simp only [List.length_append, length_u64BE, lenWidth_eq]; omega)]
    rw [List.take_of_length_le
      (by simp only [List.length_append, length_u64BE, lenWidth_eq]; omega)]
    rw [List.drop_left' (show (u64BE m.length).length = lenWidth from by
      rw [length_u64BE, lenWidth_eq])]
  rw [hsliceM]

/-- Reading a well-formed store at the position of entry `i` returns the
`i`-th marshalled record. -/
theorem store_read_at_posOfEntry (ms : List (List Nat)) (st : Store) (i : Nat)
    (hi : i < ms.length) (hbytes : st.bytes = storeBytesOf ms)
    (hmlen : ms[i].length < U64) :
    st.read (posOfEntry ms i) = .ok ms[i] := by
  have hsplit := storeBytesOf_split ms i hi
  have hpos : posOfEntry ms i = (storeBytesOf (ms.take i)).length := rfl
  rw [hpos]
  exact store_read_generic (storeBytesOf (ms.take i)) ms[i]
    (storeBytesOf (ms.drop (i + 1))) st (by rw [hbytes, hsplit]) hmlen

/-- Reading back entry `i` of a well-formed segment returns its payload and
its stamped (wrapped) offset. -/
theorem segInv_read (c : Config) (s : Segment) (vals : List (List Nat))
    (hinv : SegInv c s vals) (hc : c.MaxIndexBytes ≤ entWidth * U32)
    (i : Nat) (hi : i < vals.length) :
    s.read (s.baseOffset + i) =
      .ok { value := vals.getD i [], offset := (s.baseOffset + i) % U64 } := by
  have hcount := segInv_count_le c s vals hinv hc
  have hiU32 : i < U32 := lt_of_lt_of_le hi hcount
  have hiU64 : i < U64 := lt_of_lt_of_le hiU32 (by norm_num [U32, U64])
  have hi63 : i < 2 ^ 63 := lt_of_lt_of_le hiU32 (by norm_num [U32])
  have hims : i < (msOf s.baseOffset vals).length := by
    rw [msOf_length]
    exact hi
  have hsub : goU64sub (s.baseOffset + i) s.baseOffset = i := by
    unfold goU64sub
    rw [if_pos (Nat.le_add_right _ _)]
    try omega
  have hto : toInt64 i = (i : Int) := by
    unfold toInt64 U64
    rw [if_pos (by omega)]
    omega
  have hout : u32ofInt (i : Int) = i := by
    unfold u32ofInt
    have : ((i : Int) % (U32 : Nat)) = ((i % U32 : Nat) : Int) := by
      norm_cast
    rw [this]
    simp [Nat.mod_eq_of_lt hiU32]
  -- the index entry
  have hmΔ := msOf_getElem s.baseOffset vals i hi hims
  have hvmem : vals[i] ∈ vals := List.getElem_mem hi
  have hvlt : (vals[i] : List Nat).length < 2 ^ 63 := hinv.hvlen _ hvmem
  have hposle := posOfEntry_le (msOf s.baseOffset vals) i hims
  have hposU64 : posOfEntry (msOf s.baseOffset vals) i < U64 := by
    have := hinv.hstoreLt
    rw [hinv.hbytes] at this
    unfold lenWidth at hposle
    omega
  have hentry := hinv.hentries i hi
  have hidxread : s.index.read ((i : Nat) : Int) =
      .ok (decodeBE (u32BE (i % U32)), posOfEntry (msOf s.baseOffset vals) i) := by
    unfold Index.read
    rw [if_neg (by rw [hinv.hidxsize, entWidth_eq]; omega)]
    have hne1 : ¬ ((i : Int) = -1) := by omega
    rw [if_neg hne1, hout]
    rw [if_neg (by rw [hinv.hidxsize, entWidth_eq]; omega)]
    have h4 : sliceL s.index.mmap (i * entWidth) (i * entWidth + offWidth) =
        u32BE (i % U32) := by
      have := sliceL_take_part s.index.mmap (entWidth * i) offWidth posWidth
      rw [show entWidth * i + offWidth + posWidth = entWidth * i + entWidth from by
          rw [entWidth_eq, offWidth_eq]; rfl] at this
      rw [show i * entWidth = entWidth * i from Nat.mul_comm i entWidth, this, hentry]
      rw [List.take_left'
        (show (u32BE (i % U32)).length = offWidth from by rw [length_u32BE, offWidth_eq])]
    have h8 : sliceL s.index.mmap (i * entWidth + offWidth) (i * entWidth + entWidth) =
        u64BE (posOfEntry (msOf s.baseOffset vals) i) := by
      have := sliceL_drop_part s.index.mmap (entWidth * i) offWidth posWidth
      rw [show entWidth * i + offWidth + posWidth = entWidth * i + entWidth from by
          rw [entWidth_eq, offWidth_eq]; rfl] at this
      rw [show i * entWidth = entWidth * i from Nat.mul_comm i entWidth, this, hentry]
      rw [List.drop_left'
        (show (u32BE (i % U32)).length = offWidth from by rw [length_u32BE, offWidth_eq])]
    rw [h4, h8, decodeBE_u64BE, Nat.mod_eq_of_lt hposU64]
  -- the store bytes
  have hmlenU64 : ((msOf s.baseOffset vals)[i]).length < U64 := by
    rw [hmΔ]
    have := marshal_length_le { value := vals[i], offset := s.baseOffset + i }
    simp only at this
    unfold U64
    omega
  have hstoreread : s.store.read (posOfEntry (msOf s.baseOffset vals) i) =
      .ok (marshal { value := vals[i], offset := s.baseOffset + i }) := by
    have := store_read_at_posOfEntry (msOf s.baseOffset vals) s.store i hims
      hinv.hbytes hmlenU64
    rw [hmΔ] at this
    exact this
  -- assemble
  unfold Segment.read
  rw [hsub, hto]
  dsimp only
  rw [hidxread]
  dsimp only
  rw [hstoreread]
  dsimp only
  rw [unmarshal_marshal]
  dsimp only
  rw [getD_eq_getElem vals i hi]

theorem getD_eq_getElem' {α : Type} (l : List α) (d : α) (i : Nat) (hi : i < l.length) :
    l.getD i d = l[i] := by
  rw [List.getD_eq_getElem?_getD, List.getElem?_eq_getElem hi]
  rfl

theorem lowestOffset_eq (l : Log) (s : Segment) (h : l.segments.head? = some s) :
    l.lowestOffset = s.baseOffset := by
  unfold Log.lowestOffset
  rw [h]

theorem find?_eq_getElem_of_first {α : Type} (p : α → Bool) (xs : List α) (j : Nat)
    (hj : j < xs.length) (hpj : p xs[j] = true)
    (hbefore : ∀ i (hi : i < j), p xs[i] = false) :
    xs.find? p = some xs[j] := by
  induction xs generalizing j with
  | nil => exact absurd hj (by simp)
  | cons x xs ih =>
    cases j with
    | zero =>
      have hx : p x = true := by simpa using hpj
      rw [List.find?_cons_of_pos _ hx]
      simp
    | succ j =>
      have hx : p x = false := by simpa using hbefore 0 (by omega)
      rw [List.find?_cons_of_neg _ (by simp [hx])]
      have := ih j (by simpa using hj) (by simpa using hpj)
        (fun i hi => by simpa using hbefore (i + 1) (by omega))
      simpa using this

theorem logInv_base_le_next (l : Log) (valss : List (List (List Nat)))
    (hinv : LogInv l valss) (k : Nat) (hk : k < l.segments.length) :
    l.segments[k].baseOffset ≤ l.segments[k].nextOffset := by
  have hk' : k < valss.length := by rw [hinv.hlen]; exact hk
  have := (hinv.hseg k hk hk').hnext
  omega

/-- Contiguity implies the end of an earlier segment never exceeds the start
of a later one. -/
theorem logInv_next_le_base (l : Log) (valss : List (List (List Nat)))
    (hinv : LogInv l valss) (i j : Nat) (hij : i < j) (hj : j < l.segments.length) :
    l.segments[i].nextOffset ≤ l.segments[j].baseOffset := by
  induction j with
  | zero => omega
  | succ j ihj =>
    have hchain := List.chain'_iff_get.mp hinv.hchain j (by omega)
    simp only [List.get_eq_getElem] at hchain
    by_cases hij' : i = j
    · subst hij'
      omega
    · have h1 := ihj (by omega) (by omega)
      have h2 := logInv_base_le_next l valss hinv j (by omega)
      omega

/-- At most one segment covers a given offset. -/
theorem logInv_cover_unique (l : Log) (valss : List (List (List Nat)))
    (hinv : LogInv l valss) (off i j : Nat)
    (hi : i < l.segments.length) (hj : j < l.segments.length)
    (hci : l.segments[i].baseOffset ≤ off ∧ off < l.segments[i].nextOffset)
    (hcj : l.segments[j].baseOffset ≤ off ∧ off < l.segments[j].nextOffset) :
    i = j := by
  rcases Nat.lt_trichotomy i j with hlt | heq | hgt
  · have := logInv_next_le_base l valss hinv i j hlt hj
    omega
  · exact heq
  · have := logInv_next_le_base l valss hinv j i hgt hi
    omega

/-- Reading any offset covered by segment `j` of a well-formed log returns
that segment's record: the payload at the relative position and the wrapped
stamped offset. -/
theorem logInv_read (l : Log) (valss : List (List (List Nat)))
    (hinv : LogInv l valss) (j : Nat) (hj : j < l.segments.length) (off : Nat)
    (hb : l.segments[j].baseOffset ≤ off) (hn : off < l.segments[j].nextOffset) :
    l.read off = .ok { value := (valss.getD j []).getD (off - l.segments[j].baseOffset) []
                       offset := off % U64 } := by
  have hj' : j < valss.length := by rw [hinv.hlen]; exact hj
  have hseg := hinv.hseg j hj hj'
  have hc32 : l.config.MaxIndexBytes ≤ entWidth * U32 := hinv.hcfg.2.2.2
  have hrel : off - l.segments[j].baseOffset < valss[j].length := by
    have := hseg.hnext
    omega
  have hfind : l.segments.find?
      (fun s => decide (s.baseOffset ≤ off) && decide (off < s.nextOffset)) =
      some (l.segments[j]) := by
    apply find?_eq_getElem_of_first _ _ j hj
    · simp only [Bool.and_eq_true, decide_eq_true_eq]
      exact ⟨hb, hn⟩
    · intro i hi
      have hle := logInv_next_le_base l valss hinv i j hi hj
      have hno : ¬ (off < l.segments[i].nextOffset) := by omega
      simp [hno]
  unfold Log.read
  rw [hfind]
  dsimp only
  rw [if_neg (show ¬ (l.segments[j].nextOffset ≤ off) from by omega)]
  have hfin := segInv_read l.config l.segments[j] valss[j] hseg hc32
    (off - l.segments[j].baseOffset) hrel
  have hreleq : l.segments[j].baseOffset + (off - l.segments[j].baseOffset) = off := by
    omega
  rw [hreleq] at hfin
  rw [hfin, getD_eq_getElem' valss [] j hj']

/-- In `setup`'s scan order, the predicate "this segment starts at or before
`off`" (with a dummy default outside the list). -/
def baseLe (l : Log) (off k : Nat) : Prop :=
  (l.segments.getD k (newSegmentFresh 0 l.config)).baseOffset ≤ off

instance (l : Log) (off : Nat) : DecidablePred (baseLe l off) :=
  fun _k => inferInstanceAs (Decidable (_ ≤ _))

/-- Every offset between the lowest offset and the active segment's next
offset is covered by some segment. -/
theorem logInv_covers (l : Log) (valss : List (List (List Nat)))
    (hinv : LogInv l valss) (off : Nat)
    (hlow : l.lowestOffset ≤ off) (hhigh : off < l.activeNextOffset) :
    ∃ j, ∃ (hj : j < l.segments.length),
      l.segments[j].baseOffset ≤ off ∧ off < l.segments[j].nextOffset := by
  have hne := hinv.hne
  have hlenpos : 0 < l.segments.length := List.length_pos.mpr hne
  have hhead : l.segments.head? = some (l.segments[0]) := by
    rw [List.head?_eq_getElem?, List.getElem?_eq_getElem hlenpos]
  have hP0 : baseLe l off 0 := by
    unfold baseLe
    rw [getD_eq_getElem' l.segments _ 0 hlenpos]
    rw [lowestOffset_eq l _ hhead] at hlow
    exact hlow
  have hjle : Nat.findGreatest (baseLe l off) (l.segments.length - 1) ≤
      l.segments.length - 1 := Nat.findGreatest_le _
  obtain ⟨j, hjdef⟩ : ∃ j, j = Nat.findGreatest (baseLe l off) (l.segments.length - 1) :=
    ⟨_, rfl⟩
  rw [← hjdef] at hjle
  have hj : j < l.segments.length := by omega
  have hPj : baseLe l off j := by
    rw [hjdef]
    exact Nat.findGreatest_spec (Nat.zero_le _) hP0
  have hbj : l.segments[j].baseOffset ≤ off := by
    unfold baseLe at hPj
    rw [getD_eq_getElem' l.segments _ j hj] at hPj
    exact hPj
  refine ⟨j, hj, hbj, ?_⟩
  have hlast : l.segments.getLast? = some (l.segments[l.segments.length - 1]) := by
    rw [List.getLast?_eq_getElem?, List.getElem?_eq_getElem (by omega)]
  rw [activeNextOffset_eq l _ hlast] at hhigh
  by_cases hjtop : j = l.segments.length - 1
  · subst hjtop
    exact hhigh
  · have hnotP : ¬ baseLe l off (j + 1) := by
      intro hPj1
      have hle := Nat.le_findGreatest (n := l.segments.length - 1) (by omega) hPj1
      rw [← hjdef] at hle
      omega
    have hbase1 : off < l.segments[j + 1].baseOffset := by
      unfold baseLe at hnotP
      rw [getD_eq_getElem' l.segments _ (j + 1) (by omega)] at hnotP
      omega
    have hchain := List.chain'_iff_get.mp hinv.hchain j (by omega)
    simp only [List.get_eq_getElem] at hchain
    omega

theorem storeBytesOf_singleton (m : List Nat) :
    storeBytesOf [m] = u64BE m.length ++ m := by
  simp [storeBytesOf]

/-- A freshly bootstrapped segment satisfies the invariant with no records. -/
theorem segInv_fresh (c : Config) (b : Nat) : SegInv c (newSegmentFresh b c) [] := by
  refine ⟨?_, rfl, rfl, ?_, ?_, ?_, ?_, ?_, ?_⟩
  · show b = b + 0
    omega
  · show ([] : List Nat).length < U64
    norm_num [U64]
  · intro v hv
    exact absurd hv (List.not_mem_nil v)
  · show ([] : List Nat).length = entWidth * 0
    simp
  · show ((List.take c.MaxIndexBytes []) ++ List.replicate (c.MaxIndexBytes - 0) 0).length =
      c.MaxIndexBytes
    simp
  · show ([] : List Nat).length ≤ _
    simp
  · intro i hi
    exact absurd hi (by simp)

/-- The fresh log satisfies the invariant with one empty segment. -/
theorem logInv_newLogEmptyDir (c : Config) (hc : GoodCfg (normConfig c)) :
    LogInv (newLogEmptyDir c) [[]] := by
  refine ⟨rfl, by simp [newLogEmptyDir], hc, ?_, ?_, ?_⟩
  · intro i hi hi'
    have h0 : i = 0 := by
      simp [newLogEmptyDir] at hi
      omega
    subst h0
    exact segInv_fresh (normConfig c) (normConfig c).InitialOffset
  · exact List.chain'_singleton _
  · intro s hs
    have : s = newSegmentFresh (normConfig c).InitialOffset (normConfig c) := by
      simp [newLogEmptyDir] at hs
      exact hs.symm
    subst this
    exact ⟨by simpa using hc.1, by simpa using hc.2.1⟩

/-- A successful append on an invariant-satisfying, not-maxed segment
preserves the invariant, extending the ghost payloads with the new value. -/
theorem segInv_append (c : Config) (s : Segment) (vals : List (List Nat)) (r : Record)
    (off : Nat) (s' : Segment)
    (hseg : SegInv c s vals)
    (hv : r.value.length < 2 ^ 63)
    (hmax : s.store.size < c.MaxStoreBytes)
    (hstore62 : c.MaxStoreBytes ≤ 2 ^ 62)
    (hsa : s.append r = (some off, s')) :
    SegInv c s' (vals ++ [r.value]) := by
  obtain ⟨hoff, hbase', hnext', hbytes', hsize', hwrite⟩ :=
    segment_append_some_inv s r off s' hsa
  obtain ⟨hfit, hmmap', hidxsize'⟩ := index_write_ok_inv _ _ _ _ hwrite
  have hrec : ({ r with offset := s.nextOffset } : Record) =
      { value := r.value, offset := s.baseOffset + vals.length } := by
    rw [hseg.hnext]
  have hplen :
      (marshal { r with offset := s.nextOffset }).length ≤ 10 + r.value.length := by
    rw [hrec]
    exact marshal_length_le _
  have hsubv : goU64sub s.nextOffset s.baseOffset = vals.length := by
    unfold goU64sub
    rw [if_pos (by rw [hseg.hnext]; omega)]
    rw [hseg.hnext]
    omega
  have hdata12 :
      (u32BE (goU64sub s.nextOffset s.baseOffset % U32) ++ u64BE s.store.size).length =
      entWidth := by
    simp [length_u32BE, length_u64BE, entWidth_eq]
  refine ⟨?_, ?_, ?_, ?_, ?_, ?_, ?_, ?_, ?_⟩
  · rw [hnext', hbase', hseg.hnext, List.length_append]
    simp
    omega
  · rw [hbytes', hrec, hbase', msOf_append, storeBytesOf_append, hseg.hbytes,
      storeBytesOf_singleton]
    simp [List.append_assoc]
  · rw [hsize', hbytes', hseg.hsize]
    simp only [List.length_append, length_u64BE, lenWidth_eq]
    omega
  · rw [hbytes']
    simp only [List.length_append, length_u64BE]
    have h1 : s.store.bytes.length < c.MaxStoreBytes := by
      rw [← hseg.hsize]
      exact hmax
    have h2 : (marshal { r with offset := s.nextOffset }).length < 10 + 2 ^ 63 := by
      omega
    unfold U64
    omega
  · intro v hv'
    rcases List.mem_append.mp hv' with h | h
    · exact hseg.hvlen v h
    · rw [List.mem_singleton.mp h]
      exact hv
  · rw [hidxsize', hseg.hidxsize, List.length_append]
    simp [Nat.mul_add]
  · rw [hmmap', length_listWrite _ _ _ (by rw [hdata12]; exact hfit), hseg.hmmaplen]
  · rw [hidxsize', hmmap', length_listWrite _ _ _ (by rw [hdata12]; exact hfit)]
    exact hfit
  · intro i hi
    rw [List.length_append, List.length_singleton] at hi
    rw [hmmap']
    by_cases hilt : i < vals.length
    · have hb : entWidth * i + entWidth ≤ s.index.size := by
        rw [hseg.hidxsize, entWidth_eq]
        omega
      rw [sliceL_listWrite_before _ _ _ _ _ hb (by rw [entWidth_eq]; omega)
        (by rw [hdata12]; exact hfit)]
      have := hseg.hentries i hilt
      rw [this, hbase', msOf_append]
      rw [posOfEntry_append _ _ i (by rw [msOf_length]; omega)]
    · have hieq : i = vals.length := by omega
      subst hieq
      have hpos : s.index.size = entWidth * vals.length := hseg.hidxsize
      rw [← hpos]
      have hw := sliceL_listWrite_self s.index.mmap
        (u32BE (goU64sub s.nextOffset s.baseOffset % U32) ++ u64BE s.store.size)
        s.index.size (by rw [hdata12]; exact hfit)
      rw [show s.index.size + (u32BE (goU64sub s.nextOffset s.baseOffset % U32) ++
          u64BE s.store.size).length = s.index.size + entWidth from by rw [hdata12]] at hw
      rw [hw, hsubv, hbase', msOf_append]
      rw [posOfEntry_append _ _ vals.length (by rw [msOf_length])]
      have hptop : posOfEntry (msOf s.baseOffset vals) vals.length =
          (storeBytesOf (msOf s.baseOffset vals)).length := by
        unfold posOfEntry
        rw [show vals.length = (msOf s.baseOffset vals).length from (msOf_length _ _).symm,
          List.take_length]
      rw [hptop, ← hseg.hbytes, ← hseg.hsize]

/-- `Segment.isMaxed = false` means both sizes are strictly below their caps. -/
theorem isMaxed_false_iff (s : Segment) (c : Config) :
    s.isMaxed c = false ↔
      s.store.size < c.MaxStoreBytes ∧ s.index.size < c.MaxIndexBytes := by
  unfold Segment.isMaxed
  simp [not_le]

theorem getElem_of_getElem? {α : Type} {l : List α} {i : Nat} {x : α} (hi : i < l.length)
    (h : l[i]? = some x) : l[i] = x := by
  rw [List.getElem?_eq_getElem hi] at h
  exact Option.some.inj h

/-- A successful `Log.Append` preserves the invariant; the appended record
lands as the last payload of the segment that was active before the append,
which covers the returned offset. -/
theorem logInv_append (l : Log) (valss : List (List (List Nat))) (r : Record)
    (off : Nat) (l' : Log)
    (hinv : LogInv l valss) (hv : r.value.length < 2 ^ 63)
    (happ : l.append r = (some off, l')) :
    ∃ valss', LogInv l' valss' ∧
      ∃ (hj : l.segments.length - 1 < l'.segments.length)
        (hj' : l.segments.length - 1 < valss'.length),
        l'.segments[l.segments.length - 1].baseOffset ≤ off ∧
        off < l'.segments[l.segments.length - 1].nextOffset ∧
        valss'[l.segments.length - 1] = valss.getD (l.segments.length - 1) [] ++ [r.value] ∧
        off - l'.segments[l.segments.length - 1].baseOffset =
          (valss.getD (l.segments.length - 1) []).length := by
  obtain ⟨s, s', hl, hsa, hcases, hcfg'⟩ := log_append_some_inv l r off l' happ
  obtain ⟨ys, hys⟩ := List.getLast?_eq_some_iff.mp hl
  have hn : l.segments.length = ys.length + 1 := by rw [hys]; simp
  have hvallen : valss.length = ys.length + 1 := by rw [hinv.hlen, hn]
  have hsel : l.segments[ys.length] = s :=
    getElem_of_getElem? (by omega) (by rw [hys]; exact List.getElem?_concat_length ys s)
  have hvals_get : valss[ys.length] = valss.getD ys.length [] :=
    (getD_eq_getElem' valss [] ys.length (by omega)).symm
  have hseg : SegInv l.config s (valss.getD ys.length []) := by
    have h1 := hinv.hseg ys.length (by omega) (by omega)
    rw [hsel, hvals_get] at h1
    exact h1
  have hact := hinv.hactive s hl
  obtain ⟨hoff, hbase', hnext', _, _, _⟩ := segment_append_some_inv s r off s' hsa
  have hsegs' : SegInv l.config s' (valss.getD ys.length [] ++ [r.value]) :=
    segInv_append l.config s (valss.getD ys.length []) r off s' hseg hv hact.1
      hinv.hcfg.2.2.1 hsa
  have hyd : l.segments.dropLast = ys := by rw [hys]; exact List.dropLast_concat
  have hvdlen : valss.dropLast.length = ys.length := by
    rw [List.length_dropLast, hvallen]
    omega
  have hchold : (ys ++ [s]).Chain' (fun a b => b.baseOffset = a.nextOffset) := by
    rw [← hys]
    exact hinv.hchain
  obtain ⟨hch1, _, hch3⟩ := List.chain'_append.mp hchold
  have hchain'' : (ys ++ [s']).Chain' (fun a b => b.baseOffset = a.nextOffset) := by
    apply List.chain'_append.mpr
    refine ⟨hch1, List.chain'_singleton _, ?_⟩
    intro x hx y hy
    simp only [List.head?_cons, Option.mem_def, Option.some.injEq] at hy
    rw [← hy, hbase']
    exact hch3 x hx s (by simp)
  have hlaststep : l.segments.length - 1 = ys.length := by omega
  have hbaseLeOff : s'.baseOffset ≤ off ∧ off < s'.nextOffset ∧
      off - s'.baseOffset = (valss.getD ys.length []).length := by
    have h1 := hseg.hnext
    rw [hbase', hnext', hoff]
    refine ⟨by omega, by omega, by omega⟩
  rcases hcases with ⟨hmax, hsegs⟩ | ⟨hnotmax, hsegs⟩
  · -- rolled: a fresh segment follows s'
    rw [hyd] at hsegs
    have hslen : l'.segments.length = ys.length + 2 := by rw [hsegs]; simp
    have hvplen : ((valss.dropLast ++ [valss.getD ys.length [] ++ [r.value]]) ++
        [[]]).length = ys.length + 2 := by
      simp [hvdlen]
    have hq1 : ∀ i, i < ys.length → l'.segments[i]? = l.segments[i]? := by
      intro i hi
      have hL : l'.segments[i]? = ys[i]? := by
        rw [hsegs, List.getElem?_append_left (by simp; omega),
          List.getElem?_append_left (by omega)]
      have hR : l.segments[i]? = ys[i]? := by
        rw [hys, List.getElem?_append_left (by omega)]
      rw [hL, hR]
    have hq2 : l'.segments[ys.length]? = some s' := by
      rw [hsegs, List.getElem?_append_left (by simp), List.getElem?_concat_length]
    have hq3 : l'.segments[ys.length + 1]? = some (newSegmentFresh (off + 1) l.config) := by
      rw [hsegs, show ys.length + 1 = (ys ++ [s']).length from by simp,
        List.getElem?_concat_length]
    have hv1 : ∀ i, i < ys.length →
        ((valss.dropLast ++ [valss.getD ys.length [] ++ [r.value]]) ++ [[]])[i]? =
        valss[i]? := by
      intro i hi
      rw [List.getElem?_append_left (by simp [hvdlen]; omega),
        List.getElem?_append_left (by rw [hvdlen]; omega),
        List.getElem?_dropLast, if_pos (by omega)]
    have hv2 : ((valss.dropLast ++ [valss.getD ys.length [] ++ [r.value]]) ++
        [[]])[ys.length]? = some (valss.getD ys.length [] ++ [r.value]) := by
      rw [List.getElem?_append_left (by simp [hvdlen]),
        show ys.length = valss.dropLast.length from hvdlen.symm,
        List.getElem?_concat_length]
    have hv3 : ((valss.dropLast ++ [valss.getD ys.length [] ++ [r.value]]) ++
        [[]])[ys.length + 1]? = some [] := by
      rw [show ys.length + 1 =
        (valss.dropLast ++ [valss.getD ys.length [] ++ [r.value]]).length from by
          simp [hvdlen], List.getElem?_concat_length]
    refine ⟨(valss.dropLast ++ [valss.getD ys.length [] ++ [r.value]]) ++ [[]], ?_, ?_⟩
    · refine ⟨by rw [hvplen, hslen], by rw [hsegs]; simp, by rw [hcfg']; exact hinv.hcfg,
        ?_, ?_, ?_⟩
      · intro i hi hi'
        have hiB : i < ys.length + 2 := by rw [← hslen]; exact hi
        rw [hcfg']
        rcases Nat.lt_trichotomy i ys.length with hc | hc | hc
        · have hgs : l'.segments[i] = l.segments[i] :=
            getElem_of_getElem? hi
              ((hq1 i hc).trans (List.getElem?_eq_getElem (by omega)))
          have hvs : ((valss.dropLast ++ [valss.getD ys.length [] ++ [r.value]]) ++
              [[]])[i] = valss[i] :=
            getElem_of_getElem? hi'
              ((hv1 i hc).trans (List.getElem?_eq_getElem (by omega)))
          rw [hgs, hvs]
          exact hinv.hseg i (by omega) (by omega)
        · have hgs : l'.segments[i] = s' :=
            getElem_of_getElem? hi (by rw [hc]; exact hq2)
          have hvs : ((valss.dropLast ++ [valss.getD ys.length [] ++ [r.value]]) ++
              [[]])[i] = valss.getD ys.length [] ++ [r.value] :=
            getElem_of_getElem? hi' (by rw [hc]; exact hv2)
          rw [hgs, hvs]
          exact hsegs'
        · have hceq : i = ys.length + 1 := by omega
          have hgs : l'.segments[i] = newSegmentFresh (off + 1) l.config :=
            getElem_of_getElem? hi (by rw [hceq]; exact hq3)
          have hvs : ((valss.dropLast ++ [valss.getD ys.length [] ++ [r.value]]) ++
              [[]])[i] = ([] : List (List Nat)) :=
            getElem_of_getElem? hi' (by rw [hceq]; exact hv3)
          rw [hgs, hvs]
          exact segInv_fresh l.config (off + 1)
      · rw [hsegs]
        apply List.chain'_append.mpr
        refine ⟨hchain'', List.chain'_singleton _, ?_⟩
        intro x hx y hy
        simp only [List.head?_cons, Option.mem_def, Option.some.injEq] at hy
        rw [List.getLast?_concat] at hx
        simp only [Option.mem_def, Option.some.injEq] at hx
        rw [← hy, ← hx, newSegmentFresh_baseOffset, hnext', hoff]
      · intro t ht
        rw [hsegs, List.getLast?_concat] at ht
        have hteq : t = newSegmentFresh (off + 1) l.config := (Option.some.inj ht).symm
        subst hteq
        rw [hcfg']
        exact ⟨by simpa using hinv.hcfg.1, by simpa using hinv.hcfg.2.1⟩
    · have hjlen : l.segments.length - 1 < l'.segments.length := by
        rw [hslen]
        omega
      have hjlen' : l.segments.length - 1 <
          ((valss.dropLast ++ [valss.getD ys.length [] ++ [r.value]]) ++ [[]]).length := by
        rw [hvplen]
        omega
      have hgs : l'.segments[l.segments.length - 1] = s' :=
        getElem_of_getElem? hjlen (by rw [hlaststep]; exact hq2)
      have hvs : ((valss.dropLast ++ [valss.getD ys.length [] ++ [r.value]]) ++
          [[]])[l.segments.length - 1] =
          valss.getD ys.length [] ++ [r.value] :=
        getElem_of_getElem? hjlen' (by rw [hlaststep]; exact hv2)
      refine ⟨hjlen, hjlen', ?_, ?_, ?_, ?_⟩
      · rw [hgs]
        exact hbaseLeOff.1
      · rw [hgs]
        exact hbaseLeOff.2.1
      · rw [hvs, hlaststep]
      · rw [hgs, hlaststep]
        exact hbaseLeOff.2.2
  · -- not rolled
    rw [hyd] at hsegs
    have hslen : l'.segments.length = ys.length + 1 := by rw [hsegs]; simp
    have hvplen : (valss.dropLast ++ [valss.getD ys.length [] ++ [r.value]]).length =
        ys.length + 1 := by
      simp [hvdlen]
    have hq1 : ∀ i, i < ys.length → l'.segments[i]? = l.segments[i]? := by
      intro i hi
      have hL : l'.segments[i]? = ys[i]? := by
        rw [hsegs, List.getElem?_append_left (by omega)]
      have hR : l.segments[i]? = ys[i]? := by
        rw [hys, List.getElem?_append_left (by omega)]
      rw [hL, hR]
    have hq2 : l'.segments[ys.length]? = some s' := by
      rw [hsegs, List.getElem?_concat_length]
    have hv1 : ∀ i, i < ys.length →
        (valss.dropLast ++ [valss.getD ys.length [] ++ [r.value]])[i]? = valss[i]? := by
      intro i hi
      rw [List.getElem?_append_left (by rw [hvdlen]; omega),
        List.getElem?_dropLast, if_pos (by omega)]
    have hv2 : (valss.dropLast ++ [valss.getD ys.length [] ++ [r.value]])[ys.length]? =
        some (valss.getD ys.length [] ++ [r.value]) := by
      rw [show ys.length = valss.dropLast.length from hvdlen.symm,
        List.getElem?_concat_length]
    refine ⟨valss.dropLast ++ [valss.getD ys.length [] ++ [r.value]], ?_, ?_⟩
    · refine ⟨by rw [hvplen, hslen], by rw [hsegs]; simp, by rw [hcfg']; exact hinv.hcfg,
        ?_, ?_, ?_⟩
      · intro i hi hi'
        have hiB : i < ys.length + 1 := by rw [← hslen]; exact hi
        rw [hcfg']
        rcases Nat.lt_trichotomy i ys.length with hc | hc | hc
        · have hgs : l'.segments[i] = l.segments[i] :=
            getElem_of_getElem? hi
              ((hq1 i hc).trans (List.getElem?_eq_getElem (by omega)))
          have hvs : (valss.dropLast ++ [valss.getD ys.length [] ++ [r.value]])[i] =
              valss[i] :=
            getElem_of_getElem? hi'
              ((hv1 i hc).trans (List.getElem?_eq_getElem (by omega)))
          rw [hgs, hvs]
          exact hinv.hseg i (by omega) (by omega)
        · have hgs : l'.segments[i] = s' :=
            getElem_of_getElem? hi (by rw [hc]; exact hq2)
          have hvs : (valss.dropLast ++ [valss.getD ys.length [] ++ [r.value]])[i] =
              valss.getD ys.length [] ++ [r.value] :=
            getElem_of_getElem? hi' (by rw [hc]; exact hv2)
          rw [hgs, hvs]
          exact hsegs'
        · omega
      · rw [hsegs]
        exact hchain''
      · intro t ht
        rw [hsegs, List.getLast?_concat] at ht
        have hteq : t = s' := (Option.some.inj ht).symm
        subst hteq
        rw [hcfg']
        exact (isMaxed_false_iff t l.config).mp hnotmax
    · have hjlen : l.segments.length - 1 < l'.segments.length := by
        rw [hslen]
        omega
      have hjlen' : l.segments.length - 1 <
          (valss.dropLast ++ [valss.getD ys.length [] ++ [r.value]]).length := by
        rw [hvplen]
        omega
      have hgs : l'.segments[l.segments.length - 1] = s' :=
        getElem_of_getElem? hjlen (by rw [hlaststep]; exact hq2)
      have hvs : (valss.dropLast ++
          [valss.getD ys.length [] ++ [r.value]])[l.segments.length - 1] =
          valss.getD ys.length [] ++ [r.value] :=
        getElem_of_getElem? hjlen' (by rw [hlaststep]; exact hv2)
      refine ⟨hjlen, hjlen', ?_, ?_, ?_, ?_⟩
      · rw [hgs]
        exact hbaseLeOff.1
      · rw [hgs]
        exact hbaseLeOff.2.1
      · rw [hvs, hlaststep]
      · rw [hgs, hlaststep]
        exact hbaseLeOff.2.2

/-- Over a list whose `nextOffset`s are monotone, `Truncate`'s removal
condition deletes a prefix: the kept segments are a `drop`. -/
theorem filter_next_eq_drop (segs : List Segment) (lowest : Nat)
    (hpw : segs.Pairwise (fun a b => a.nextOffset ≤ b.nextOffset)) :
    ∃ k, k ≤ segs.length ∧
      segs.filter (fun s => decide (lowest < s.nextOffset)) = segs.drop k := by
  induction segs with
  | nil => exact ⟨0, by simp, rfl⟩
  | cons s rest ih =>
    rw [List.pairwise_cons] at hpw
    obtain ⟨hhead, htail⟩ := hpw
    by_cases hp : lowest < s.nextOffset
    · refine ⟨0, by simp, ?_⟩
      rw [List.drop_zero, List.filter_cons_of_pos (by simpa using hp)]
      congr 1
      rw [List.filter_eq_self]
      intro a ha
      have := hhead a ha
      simp only [decide_eq_true_eq]
      omega
    · obtain ⟨k, hk, hfil⟩ := ih htail
      refine ⟨k + 1, by simp; omega, ?_⟩
      rw [List.filter_cons_of_neg (by simpa using hp)]
      rw [hfil]
      rfl

theorem chain'_drop {α : Type} (R : α → α → Prop) (l : List α) (hch : l.Chain' R)
    (k : Nat) : (l.drop k).Chain' R := by
  induction k with
  | zero => simpa using hch
  | succ k ih =>
    rw [← List.tail_drop]
    exact List.Chain'.tail ih

/-- `Log.Truncate` preserves the invariant (the kept segments form a suffix). -/
theorem logInv_truncate (l : Log) (valss : List (List (List Nat))) (lowest : Nat)
    (l' : Log) (hinv : LogInv l valss) (h : l.truncate lowest = some l') :
    ∃ valss', LogInv l' valss' := by
  have hinvT : l'.segments = l.segments.filter (fun s => decide (lowest < s.nextOffset)) ∧
      l'.config = l.config ∧
      (l.segments.filter (fun s => decide (lowest < s.nextOffset))).isEmpty = false := by
    unfold Log.truncate at h
    by_cases he : (l.segments.filter (fun s => decide (lowest < s.nextOffset))).isEmpty
    · rw [if_pos he] at h
      exact absurd h (by simp)
    · rw [if_neg he] at h
      have := Option.some.inj h
      rw [← this]
      exact ⟨rfl, rfl, by simpa using he⟩
  obtain ⟨hsegs, hcfg', hkept⟩ := hinvT
  have hpw : l.segments.Pairwise (fun a b => a.nextOffset ≤ b.nextOffset) := by
    rw [List.pairwise_iff_getElem]
    intro i j hi hj hij
    have h1 := logInv_next_le_base l valss hinv i j hij hj
    have h2 := logInv_base_le_next l valss hinv j hj
    omega
  obtain ⟨k, hk, hfil⟩ := filter_next_eq_drop l.segments lowest hpw
  rw [hfil] at hsegs hkept
  have hklt : k < l.segments.length := by
    by_contra hge
    have : l.segments.drop k = [] := List.drop_eq_nil_of_le (by omega)
    rw [this] at hkept
    simp at hkept
  refine ⟨valss.drop k, ?_⟩
  refine ⟨?_, ?_, ?_, ?_, ?_, ?_⟩
  · rw [hsegs]
    simp [hinv.hlen]
  · rw [hsegs]
    intro hnil
    rw [hnil] at hkept
    simp at hkept
  · rw [hcfg']
    exact hinv.hcfg
  · intro i hi hi'
    rw [hcfg']
    rw [hsegs] at hi
    rw [List.length_drop] at hi
    have hi2 : i < (valss.drop k).length := hi'
    rw [List.length_drop] at hi2
    have hgs : l'.segments[i] =
        l.segments[k + i] :=
      getElem_of_getElem? _ (by
        rw [hsegs, List.getElem?_drop, List.getElem?_eq_getElem (by omega)])
    have hvs : (valss.drop k)[i] = valss[k + i] :=
      getElem_of_getElem? _ (by
        rw [List.getElem?_drop, List.getElem?_eq_getElem (by rw [hinv.hlen]; omega)])
    rw [hgs, hvs]
    exact hinv.hseg (k + i) (by omega) (by rw [hinv.hlen]; omega)
  · rw [hsegs]
    exact chain'_drop _ _ hinv.hchain k
  · intro t ht
    rw [hcfg']
    apply hinv.hactive t
    rw [hsegs, List.getLast?_drop] at ht
    rw [if_neg (by omega)] at ht
    exact ht

/-- The log states reachable through the public mutating operations: a fresh
log in an empty directory (with a sane configuration), successful appends of
records whose payloads fit in a Go slice (length below 2^63), with their
roll-overs, and successful truncations. -/
inductive Reachable : Log → Prop where
  | base (c : Config) (hc : GoodCfg (normConfig c)) : Reachable (newLogEmptyDir c)
  | append (l l' : Log) (r : Record) (off : Nat) (hr : r.value.length < 2 ^ 63)
      (hl : Reachable l) (h : l.append r = (some off, l')) : Reachable l'
  | trunc (l l' : Log) (lowest : Nat) (hl : Reachable l)
      (h : l.truncate lowest = some l') : Reachable l'

/-- Every reachable log state satisfies the whole-log invariant. -/
theorem reachable_logInv (l : Log) (h : Reachable l) : ∃ valss, LogInv l valss := by
  induction h with
  | base c hc => exact ⟨[[]], logInv_newLogEmptyDir c hc⟩
  | append l l' r off hr hl h ih =>
    obtain ⟨valss, hinv⟩ := ih
    obtain ⟨valss', hinv', _⟩ := logInv_append l valss r off l' hinv hr h
    exact ⟨valss', hinv'⟩
  | trunc l l' lowest hl h ih =>
    obtain ⟨valss, hinv⟩ := ih
    exact logInv_truncate l valss lowest l' hinv h

/-! ### C1 — append/read round trip -/

/-- C1: on any reachable log, a record `r` whose append returns offset `off`
is returned by a subsequent `read(off)` with its payload intact and its
`Offset` field equal to the assigned offset.  The hypotheses bound the
payload by Go's maximum slice length (2^63) and the returned offset by the
`uint64` range, both automatic in any real execution. -/
theorem log_append_read_roundtrip (l : Log) (r : Record) (off : Nat) (l' : Log)
    (hreach : Reachable l) (hv : r.value.length < 2 ^ 63) (hoffU64 : off < U64)
    (happ : l.append r = (some off, l')) :
    l'.read off = .ok { value := r.value, offset := off } := by
  obtain ⟨valss, hinv⟩ := reachable_logInv l hreach
  obtain ⟨valss', hinv', hj, hj', hb, hn, hvlast, hrel⟩ :=
    logInv_append l valss r off l' hinv hv happ
  have hread := logInv_read l' valss' hinv' (l.segments.length - 1) hj off hb hn
  rw [hread]
  have h1 : (valss'.getD (l.segments.length - 1) []).getD
      (off - l'.segments[l.segments.length - 1].baseOffset) [] = r.value := by
    rw [getD_eq_getElem' valss' [] _ hj', hvlast, hrel]
    rw [getD_eq_getElem' _ [] _ (by simp)]
    exact List.getElem_concat_length _ _ _ rfl (by simp)
  have h2 : off % U64 = off := Nat.mod_eq_of_lt hoffU64
  rw [h1, h2]

/-- C1 witness: append one record to the fresh log and read it back. -/
theorem log_append_read_roundtrip_witness :
    ((newLogEmptyDir cfgW).append recW).2.read 0 =
      .ok { value := recW.value, offset := 0 } := by
  have h1 : ((newLogEmptyDir cfgW).append recW).1 = some 0 := by decide
  have happ : (newLogEmptyDir cfgW).append recW =
      (some 0, ((newLogEmptyDir cfgW).append recW).2) := by
    rw [← h1]
  exact log_append_read_roundtrip (newLogEmptyDir cfgW) recW 0
    ((newLogEmptyDir cfgW).append recW).2
    (Reachable.base cfgW (by decide)) (by decide) (by decide) happ

/-! ### C3 — contiguity and coverage -/

/-- C3 counterexample: the claim's "consequently every offset in
`[lowestOffset, highestOffset]` is covered by exactly one segment and read on
it succeeds" fails on the empty log (reachable by the empty sequence of
operations): `lowestOffset = highestOffset = 0`, yet offset 0 is covered by
no segment and `read(0)` fails out-of-range. -/
theorem contiguity_empty_counterexample :
    (newLogEmptyDir { MaxStoreBytes := 1024, MaxIndexBytes := 1024, InitialOffset := 0 }).lowestOffset = 0 ∧
    (newLogEmptyDir { MaxStoreBytes := 1024, MaxIndexBytes := 1024, InitialOffset := 0 }).highestOffset = 0 ∧
    (newLogEmptyDir { MaxStoreBytes := 1024, MaxIndexBytes := 1024, InitialOffset := 0 }).read 0 =
      .error (.offsetOutOfRange 0) := by
  refine ⟨rfl, rfl, ?_⟩
  decide

/-- C3 amended: on every reachable log state (fresh log, successful appends
with their roll-overs, successful truncations), the segment list is
contiguous — segment `k+1`'s `baseOffset` equals segment `k`'s `nextOffset` —
and every offset is covered by at most one segment; moreover, whenever the
log contains at least one record (`lowestOffset < activeNextOffset`), every
offset in `[lowestOffset, highestOffset]` is covered by exactly one segment
and `read` on it succeeds.  The empty log violates the coverage clause (see
the counterexample). -/
theorem contiguity_and_coverage (l : Log) (hreach : Reachable l) :
    (∀ i (hi : i + 1 < l.segments.length),
      l.segments[i + 1].baseOffset = l.segments[i].nextOffset) ∧
    (∀ off i j (hi : i < l.segments.length) (hj : j < l.segments.length),
      l.segments[i].baseOffset ≤ off → off < l.segments[i].nextOffset →
      l.segments[j].baseOffset ≤ off → off < l.segments[j].nextOffset → i = j) ∧
    (l.lowestOffset < l.activeNextOffset →
      ∀ off, l.lowestOffset ≤ off → off ≤ l.highestOffset →
        (∃ j, ∃ (hj : j < l.segments.length),
          l.segments[j].baseOffset ≤ off ∧ off < l.segments[j].nextOffset) ∧
        ∃ rec, l.read off = .ok rec) := by
  obtain ⟨valss, hinv⟩ := reachable_logInv l hreach
  refine ⟨?_, ?_, ?_⟩
  · intro i hi
    have := List.chain'_iff_get.mp hinv.hchain i (by omega)
    simpa using this
  · intro off i j hi hj h1 h2 h3 h4
    exact logInv_cover_unique l valss hinv off i j hi hj ⟨h1, h2⟩ ⟨h3, h4⟩
  · intro hrec off hlow hhigh
    have hne := hinv.hne
    have hlenpos : 0 < l.segments.length := List.length_pos.mpr hne
    have hlast : l.segments.getLast? =
        some (l.segments[l.segments.length - 1]) := by
      rw [List.getLast?_eq_getElem?, List.getElem?_eq_getElem (by omega)]
    have hanext := activeNextOffset_eq l _ hlast
    have hanz : l.activeNextOffset ≠ 0 := by omega
    have hhi : l.highestOffset = l.activeNextOffset - 1 := by
      unfold Log.highestOffset
      rw [hlast]
      dsimp only
      rw [← hanext, if_neg hanz]
    have hoffa : off < l.activeNextOffset := by omega
    obtain ⟨j, hj, hcov⟩ := logInv_covers l valss hinv off hlow hoffa
    refine ⟨⟨j, hj, hcov⟩, ?_⟩
    exact ⟨_, logInv_read l valss hinv j hj off hcov.1 hcov.2⟩

/-- C3 witness: a log with one record (one append on the fresh log) has its
single in-range offset 0 covered and readable. -/
theorem contiguity_and_coverage_witness :
    ∃ rec, (((newLogEmptyDir cfgW).append recW).2).read 0 = Except.ok rec := by
  have h1 : ((newLogEmptyDir cfgW).append recW).1 = some 0 := by decide
  have happ : (newLogEmptyDir cfgW).append recW =
      (some 0, ((newLogEmptyDir cfgW).append recW).2) := by
    rw [← h1]
  have hreach : Reachable (((newLogEmptyDir cfgW).append recW).2) :=
    Reachable.append _ _ recW 0 (by decide) (Reachable.base cfgW (by decide)) happ
  exact ((contiguity_and_coverage _ hreach).2.2 (by decide) 0 (by decide) (by decide)).2

end Proglog
